import Mathlib

/-!
Verification of the magnetico database merge tool (`src/magnetico_merge.py`)
against its natural-language specification.

The development shallowly embeds the merge engine: torrent and file rows,
the target database state, the SQLite row-at-a-time merge (shared-storage
path), the PostgreSQL batched merge with its bulk-copy and batched-fallback
file paths, the fast-mode catalog suspension, the main loop, and the UTF-8
`errors="replace"` text factory of the SQLite connection.

External driver semantics that the script depends on are embedded from the
documented behaviour of the libraries it calls:
  * `sqlite3`: `cursor.lastrowid` mirrors `sqlite3_last_insert_rowid`, which
    is updated only by a successful row insert; an `INSERT .. ON CONFLICT DO
    NOTHING` whose row was skipped leaves it unchanged (stale), and it is 0 on
    a connection that has not inserted any row yet.
  * PostgreSQL: `INSERT .. ON CONFLICT DO NOTHING RETURNING id` produces one
    result row per row actually inserted; skipped rows yield no result row.
  * psycopg2 raises `ValueError` mentioning `0x00` when adapting a string
    containing an embedded NUL; the PostgreSQL server rejects NUL bytes in
    text fields of a COPY stream with DataError 22021.
-/

deriving instance DecidableEq for Except

namespace MagneticoMerge

/-- The NUL character: legal inside SQLite TEXT values, rejected by
PostgreSQL's text type. -/
def nulChar : Char := Char.ofNat 0

/-- Python text values (row fields of TEXT columns) are modelled as lists of
characters. -/
abbrev Text := List Char

/-- Whether a text value contains an embedded NUL character. -/
def hasNul (s : Text) : Bool := s.any (fun c => c = nulChar)

/-- `value.replace("\x00", "")` from `PostgreSQL.fix_bytes` (line 489):
removes every NUL character of the value. -/
def stripNul (s : Text) : Text := s.filter (fun c => ¬ c = nulChar)

/-- A row of the `torrents` table, following the schema quoted at the top of
the source (lines 29–41).  `id` is the surrogate primary key; `info_hash` is
the unique BLOB conflict key, modelled as a list of byte values. -/
structure TorrentRow where
  id : Nat
  info_hash : List Nat
  name : Text
  total_size : Int
  discovered_on : Int
  updated_on : Option Int
  n_seeders : Option Int
  n_leechers : Option Int
  modified_on : Int
deriving DecidableEq, Repr

/-- A row of the `files` table (schema lines 42–47).  `torrent_id` is the
foreign key into `torrents`; `path` and `content` are the TEXT columns. -/
structure FileRow where
  id : Nat
  torrent_id : Nat
  size : Int
  path : Text
  is_readme : Option Int
  content : Option Text
deriving DecidableEq, Repr

/-- The source database: read-only for the duration of a run. -/
structure SourceDB where
  torrents : List TorrentRow
  files : List FileRow
deriving DecidableEq, Repr

/-- The target database state.  `nextTorrentId` / `nextFileId` model the
rowid (SQLite) resp. sequence (PostgreSQL) assignment of fresh surrogate
ids. -/
structure TargetDB where
  torrents : List TorrentRow
  files : List FileRow
  nextTorrentId : Nat
  nextFileId : Nat
deriving DecidableEq, Repr

/-- Whether some target torrent already carries the given unique
`info_hash`. -/
def hashPresent (db : TargetDB) (h : List Nat) : Bool :=
  db.torrents.any (fun t => t.info_hash = h)

/-- `INSERT INTO torrents (…) VALUES (…) ON CONFLICT DO NOTHING` (lines
212–213 and 384–385): the unique `info_hash` is the sole conflict key; on
conflict nothing is inserted and no id is produced, otherwise the row is
stored under a fresh target id which is returned. -/
def insertTorrentOrSkip (db : TargetDB) (t : TorrentRow) : TargetDB × Option Nat :=
  if hashPresent db t.info_hash then (db, none)
  else
    let nid := db.nextTorrentId
    ({ db with
        torrents := db.torrents ++ [{ t with id := nid }],
        nextTorrentId := nid + 1 },
      some nid)

/-- Append one file row to the target under the given foreign key, with a
fresh surrogate id. -/
def insertFileRow (db : TargetDB) (fk : Nat) (f : FileRow) : TargetDB :=
  { db with
      files := db.files ++ [{ f with id := db.nextFileId, torrent_id := fk }],
      nextFileId := db.nextFileId + 1 }

/-- `SELECT … FROM files WHERE torrent_id = ?` on the source (line 215). -/
def sourceFilesForId (src : SourceDB) (tid : Nat) : List FileRow :=
  src.files.filter (fun f => f.torrent_id = tid)

/-- `SELECT * FROM files WHERE torrent_id IN (…)` on the source (lines
472–475), in source cursor order. -/
def sourceFilesForIds (src : SourceDB) (keys : List Nat) : List FileRow :=
  src.files.filter (fun f => keys.contains f.torrent_id)

/-- The per-batch result dictionary of `merge_torrents` (lines 232–237 and
412–417). -/
structure MergeResult where
  failed : Nat
  inserted : Nat
  processed : Nat
  last : Option TorrentRow
deriving DecidableEq, Repr

/-! ### SQLite target (row-at-a-time strategy, lines 166–250) -/

/-- SQLite connection state: the target database plus the connection's
last-insert rowid (`sqlite3_last_insert_rowid`).  The rowid is 0 while no row
has been successfully inserted through this connection; it is updated by
every successful insert (into `torrents` or `files`) and left unchanged by an
insert whose `ON CONFLICT DO NOTHING` clause suppressed the row. -/
structure SqliteState where
  db : TargetDB
  lastInsertRowid : Nat
deriving DecidableEq, Repr

/-- The `INSERT INTO target.files (torrent_id, …) SELECT ?, … FROM files
WHERE torrent_id = ?` statement body (lines 214–215): inserts the given
source rows under the foreign key `fk`; each successful row insert moves the
connection's last-insert rowid to that row's fresh id. -/
def sqliteInsertFiles (fk : Nat) (st : SqliteState) : List FileRow → SqliteState
  | [] => st
  | f :: rest =>
    let fid := st.db.nextFileId
    sqliteInsertFiles fk { db := insertFileRow st.db fk f, lastInsertRowid := fid } rest

/-- `SQLite.merge_files` (lines 239–241): executes the `INSERT … SELECT`
only in shared-storage mode (`merged_source`, i.e. a SQLite source attached
to the target connection); with a PostgreSQL source it is a no-op. -/
def sqliteMergeFiles (src : SourceDB) (mergedSource : Bool) (st : SqliteState)
    (fk oldId : Nat) : SqliteState :=
  if mergedSource then sqliteInsertFiles fk st (sourceFilesForId src oldId) else st

/-- One iteration of the `SQLite.merge_torrents` loop (lines 220–230):
insert-or-skip the torrent, then read `cursor.lastrowid`.  A successful
insert sets the rowid to the fresh torrent id; a conflicting insert leaves it
unchanged.  The row counts as failed exactly when the rowid reads 0 (or
`None`, merged into 0 here); otherwise it counts as inserted and its file
merge runs with that rowid as the new foreign key.  The returned flag is
`true` when the row was counted as inserted. -/
def sqliteMergeOne (src : SourceDB) (mergedSource : Bool) (st : SqliteState)
    (t : TorrentRow) : SqliteState × Bool :=
  let step := insertTorrentOrSkip st.db t
  let lri := match step.2 with
    | some nid => nid
    | none => st.lastInsertRowid
  let st1 : SqliteState := { db := step.1, lastInsertRowid := lri }
  if lri = 0 then (st1, false)
  else (sqliteMergeFiles src mergedSource st1 lri t.id, true)

/-- The counting loop of `SQLite.merge_torrents` (lines 217–230), returning
the final state and the (failed, inserted, processed) counters. -/
def sqliteMergeCounts (src : SourceDB) (mergedSource : Bool) (st : SqliteState) :
    List TorrentRow → SqliteState × Nat × Nat × Nat
  | [] => (st, 0, 0, 0)
  | t :: rest =>
    let one := sqliteMergeOne src mergedSource st t
    let tail := sqliteMergeCounts src mergedSource one.1 rest
    (tail.1,
      tail.2.1 + (if one.2 then 0 else 1),
      tail.2.2.1 + (if one.2 then 1 else 0),
      tail.2.2.2 + 1)

/-- `SQLite.merge_torrents` (lines 209–237). -/
def sqliteMergeTorrents (src : SourceDB) (mergedSource : Bool) (st : SqliteState)
    (ts : List TorrentRow) : SqliteState × MergeResult :=
  let r := sqliteMergeCounts src mergedSource st ts
  (r.1, { failed := r.2.1, inserted := r.2.2.1, processed := r.2.2.2, last := ts.getLast? })

/-! ### PostgreSQL target (batched, id-returning strategy, lines 253–494) -/

/-- Errors that can surface from the PostgreSQL merge path or the main loop.
`valueErrorNul` is psycopg2's client-side ValueError mentioning `0x00`;
`valueErrorOther` any other ValueError (the `except` clause then falls
through without re-raising, and the subsequent read of the unbound `result`
raises `unboundLocal`); `dataErrorNul` the server-side DataError 22021 for a
NUL byte in a COPY text field; `uniqueViolation` a unique-index violation
raised by COPY (which has no ON CONFLICT clause); `recursionLimit` Python's
recursion limit, hit if the strip-and-retry recursion never stops failing;
`loopForever` marks the batched-fallback retry loop repeating a failing
statement without progress; `typeErrorNone` the `None["id"]` subscript of
`main` in stripped mode; `emptyDropIndex` the invalid `DROP INDEX` statement
built from an empty index list. -/
inductive MergeError where
  | valueErrorNul
  | valueErrorOther
  | unboundLocal
  | dataErrorNul
  | dataErrorOther
  | uniqueViolation
  | recursionLimit
  | loopForever
  | typeErrorNone
  | emptyDropIndex
deriving DecidableEq, Repr

/-- The insert-or-skip of a whole torrent batch, threading the target state
and collecting, in batch order, the fresh ids of the rows actually inserted
(PostgreSQL `RETURNING id` yields no row for a skipped conflict). -/
def pgInsertAll (db : TargetDB) : List TorrentRow → TargetDB × List Nat
  | [] => (db, [])
  | t :: rest =>
    match insertTorrentOrSkip db t with
    | (db1, some nid) =>
      let tail := pgInsertAll db1 rest
      (tail.1, nid :: tail.2)
    | (db1, none) => pgInsertAll db1 rest

/-- `psycopg2.extras.execute_values` of the torrents statement with
`fetch=True` (lines 390–398).  Adapting any torrent whose `name` contains an
embedded NUL raises ValueError (`name` is the only TEXT column of
`torrents`); otherwise the multi-row `INSERT … ON CONFLICT DO NOTHING
RETURNING id` runs and the fetched result holds one id per row actually
inserted. -/
def pgExecuteValuesTorrents (db : TargetDB) (ts : List TorrentRow) :
    Except MergeError (TargetDB × List Nat) :=
  if ts.any (fun t => hasNul t.name) then .error .valueErrorNul
  else .ok (pgInsertAll db ts)

/-- `fix_bytes(torrents, "name")` (lines 479–490): strip NUL characters from
the `name` column of every row of the batch.  (The source values are already
`str` thanks to the SQLite text factory, so the bytes branch does not fire.) -/
def fixBytesName (ts : List TorrentRow) : List TorrentRow :=
  ts.map (fun t => { t with name := stripNul t.name })

/-- `fix_bytes(rows, "path")` on file rows (lines 428, 454, 461). -/
def fixBytesPath (fs : List FileRow) : List FileRow :=
  fs.map (fun f => { f with path := stripNul f.path })

/-- The dict comprehension of lines 404–408: zip the fetched id rows
positionally with the batch's torrents and key each id by that torrent's
source id.  (The `is not None` guard never removes anything, because every
fetched row carries a real id.)  Python's zip truncates at the shorter list,
so when conflicts shorten `ids` the pairing shifts onto the batch's prefix. -/
def buildIdMap (ids : List Nat) (ts : List TorrentRow) : List (Nat × Nat) :=
  (ids.zip ts).map (fun p => (p.2.id, p.1))

/-- Lookup in the old-id-to-new-id dictionary. -/
def lookupMap (m : List (Nat × Nat)) (k : Nat) : Option Nat :=
  (m.find? (fun p => p.1 = k)).map Prod.snd

/-- Whether any TEXT field of a (client-side) file row contains a NUL:
psycopg2 and the server reject both `path` and `content`. -/
def fileTextHasNul (f : FileRow) : Bool :=
  hasNul f.path || (match f.content with | some s => hasNul s | none => false)

/-- The row rewriting of `get_source_files` (lines 456–467) and of the
fallback's parameter lists (lines 443–449): optionally strip NULs from
`path` (`fix_nul` / `fix_bytes`), then replace the foreign key by its image
under the id map. -/
def pgRewriteRows (m : List (Nat × Nat)) (fixNul : Bool) (rows : List FileRow) :
    List FileRow :=
  rows.map (fun f =>
    let f1 := if fixNul then { f with path := stripNul f.path } else f
    { f1 with torrent_id := (lookupMap m f1.torrent_id).getD 0 })

/-- Whether inserting `f` into the target `files` table violates the unique
`(torrent_id, is_readme)` index (NULL markers never conflict). -/
def readmeConflict (db : TargetDB) (f : FileRow) : Bool :=
  ¬ f.is_readme = none &&
    db.files.any (fun g => g.torrent_id = f.torrent_id && g.is_readme = f.is_readme)

/-- `pgcopy.CopyManager.threading_copy` into `files` (line 423): streams the
rewritten rows into the table.  The server rejects a NUL in any text field
with DataError 22021; a duplicate `(torrent_id, is_readme)` pair raises a
unique violation (COPY has no conflict clause); otherwise every row is
appended under a fresh sequence id. -/
def pgCopyRows (db : TargetDB) : List FileRow → Except MergeError TargetDB
  | [] => .ok db
  | f :: rest =>
    if fileTextHasNul f then .error .dataErrorNul
    else if readmeConflict db f then .error .uniqueViolation
    else pgCopyRows (insertFileRow db f.torrent_id f) rest

/-- `PostgreSQL.merge_files`, bulk-copy path (lines 420–433): set a
savepoint, copy the rewritten source rows; on a NUL DataError roll back to
the savepoint and copy once more with `fix_nul=True`; any error of that
second copy, and any non-NUL DataError of the first, propagates. -/
def pgMergeFilesCopy (src : SourceDB) (db : TargetDB) (m : List (Nat × Nat)) :
    Except MergeError TargetDB :=
  let rows := sourceFilesForIds src (m.map Prod.fst)
  match pgCopyRows db (pgRewriteRows m false rows) with
  | .ok db1 => .ok db1
  | .error .dataErrorNul => pgCopyRows db (pgRewriteRows m true rows)
  | .error e => .error e

/-- `INSERT INTO files (…) VALUES %s ON CONFLICT DO NOTHING` over one
fetchmany page of rewritten rows. -/
def pgInsertFilesPage (db : TargetDB) : List FileRow → TargetDB
  | [] => db
  | f :: rest =>
    if readmeConflict db f then pgInsertFilesPage db rest
    else pgInsertFilesPage (insertFileRow db f.torrent_id f) rest

/-- One iteration of the no-pgcopy fallback loop (lines 436–454) on one
fetchmany page: executing the multi-row insert raises ValueError client-side
if any rewritten text value contains a NUL; the handler then replaces the
page by `fix_bytes(page, "path")` and the loop retries the same page.  If the
fixed page still contains NUL text (a NUL inside `content`, which `fix_bytes`
does not touch), the loop re-raises and retries without progress forever;
this divergence is modelled by the `loopForever` error value. -/
def pgFallbackPage (m : List (Nat × Nat)) (db : TargetDB) (page : List FileRow) :
    Except MergeError TargetDB :=
  if (pgRewriteRows m false page).any fileTextHasNul then
    if (pgRewriteRows m true page).any fileTextHasNul then .error .loopForever
    else .ok (pgInsertFilesPage db (pgRewriteRows m true page))
  else .ok (pgInsertFilesPage db (pgRewriteRows m false page))

/-- Split a list into consecutive chunks of size `n` (cursor `fetchmany` with
`arraysize = n`).  The structural fuel is the list length: every round
consumes at least one element, so `l.length` rounds always suffice. -/
def chunkListFuel (n : Nat) : Nat → List α → List (List α)
  | 0, _ => []
  | _, [] => []
  | fuel + 1, a :: l =>
    if n = 0 then []
    else ((a :: l).take n) :: chunkListFuel n fuel ((a :: l).drop n)

/-- The chunks of `l` of size `n`. -/
def chunkList (n : Nat) (l : List α) : List (List α) :=
  chunkListFuel n l.length l

/-- Left fold of a page-processing step over a page list, stopping at the
first error. -/
def foldPages (f : TargetDB → List FileRow → Except MergeError TargetDB)
    (db : TargetDB) : List (List FileRow) → Except MergeError TargetDB
  | [] => .ok db
  | p :: rest =>
    match f db p with
    | .ok db1 => foldPages f db1 rest
    | .error e => .error e

/-- `PostgreSQL.merge_files`, batched-fallback path (lines 434–454): page
the source rows for the mapped old ids with `fetchmany` (arraysize 1000) and
run the insert loop on each page. -/
def pgMergeFilesFallback (src : SourceDB) (db : TargetDB) (m : List (Nat × Nat)) :
    Except MergeError TargetDB :=
  foldPages (pgFallbackPage m) db
    (chunkList 1000 (sourceFilesForIds src (m.map Prod.fst)))

/-- `PostgreSQL.merge_files` (lines 419–454): bulk-copy path when a copy
manager is available, batched fallback otherwise. -/
def pgMergeFiles (copyMgr : Bool) (src : SourceDB) (db : TargetDB)
    (m : List (Nat × Nat)) : Except MergeError TargetDB :=
  if copyMgr then pgMergeFilesCopy src db m else pgMergeFilesFallback src db m

/-- `PostgreSQL.merge_torrents` (lines 381–417), parametric in the execute
step so that the error-propagation behaviour can be stated for an arbitrary
backend outcome.  On a NUL ValueError the whole call recurses on the batch
with `fix_bytes(torrents, "name")`; the fuel models Python's recursion limit
bounding that retry recursion.  Any other ValueError falls through the
`except` clause, leaving `result` unbound (`unboundLocal`); other errors
propagate as raised.  On success the id map is built, the file merge runs,
and the result dictionary reports `len(torrents)` processed, `len(result)`
inserted and their difference failed. -/
def pgMergeTorrentsGen
    (exec : TargetDB → List TorrentRow → Except MergeError (TargetDB × List Nat))
    (copyMgr : Bool) (src : SourceDB) :
    Nat → TargetDB → List TorrentRow → Except MergeError (TargetDB × MergeResult)
  | 0, _, _ => .error .recursionLimit
  | fuel + 1, db, ts =>
    match exec db ts with
    | .error .valueErrorNul =>
      pgMergeTorrentsGen exec copyMgr src fuel db (fixBytesName ts)
    | .error .valueErrorOther => .error .unboundLocal
    | .error e => .error e
    | .ok (db1, ids) =>
      match pgMergeFiles copyMgr src db1 (buildIdMap ids ts) with
      | .error e => .error e
      | .ok db2 =>
        .ok (db2,
          { failed := ts.length - ids.length,
            inserted := ids.length,
            processed := ts.length,
            last := ts.getLast? })

/-- `PostgreSQL.merge_torrents` with the actual psycopg2 execute step. -/
def pgMergeTorrents (copyMgr : Bool) (src : SourceDB) (fuel : Nat)
    (db : TargetDB) (ts : List TorrentRow) :
    Except MergeError (TargetDB × MergeResult) :=
  pgMergeTorrentsGen pgExecuteValuesTorrents copyMgr src fuel db ts

/-! ### The main loop (lines 510–563) -/

/-- `Database.stripped_files_constraint` applied to the source selection
(lines 119–123, 142–147): with `--stripped-files` only torrents with at
least one remaining file row are selected. -/
def strippedSelection (stripped : Bool) (src : SourceDB) : List TorrentRow :=
  if stripped then
    src.torrents.filter (fun t => (sourceFilesForId src t.id).length > 0)
  else src.torrents

/-- Run `merge_torrents` over successive batches on a SQLite target,
threading the connection state and collecting the per-batch results. -/
def sqliteRunBatches (src : SourceDB) (mergedSource : Bool) (st : SqliteState) :
    List (List TorrentRow) → SqliteState × List MergeResult
  | [] => (st, [])
  | b :: rest =>
    let one := sqliteMergeTorrents src mergedSource st b
    let tail := sqliteRunBatches src mergedSource one.1 rest
    (tail.1, one.2 :: tail.2)

/-- Run `merge_torrents` over successive batches on a PostgreSQL target
(each call gets enough recursion budget for the single strip-and-retry). -/
def pgRunBatches (copyMgr : Bool) (src : SourceDB) (db : TargetDB) :
    List (List TorrentRow) → Except MergeError (TargetDB × List MergeResult)
  | [] => .ok (db, [])
  | b :: rest =>
    match pgMergeTorrents copyMgr src 2 db b with
    | .error e => .error e
    | .ok (db1, r) =>
      match pgRunBatches copyMgr src db1 rest with
      | .error e => .error e
      | .ok (db2, rs) => .ok (db2, r :: rs)

/-- The externally observable outcome of `main` (lines 510–563):
the durably committed target state, how many commits ran, whether the
blanket `except BaseException` handler fired (rollback plus error report),
the process exit code, and the torrent id echoed by the stripped-files
diagnostic. -/
structure MainOutcome where
  committedDb : TargetDB
  commits : Nat
  rolledBack : Bool
  errorSurfaced : Bool
  exitCode : Nat
  reportedLastId : Option Nat
deriving DecidableEq, Repr

/-- The outcome of the `except BaseException` handler (lines 553–558): the
target transaction is rolled back (the durable state stays at the initial
one), the error is echoed with a traceback, and — the exception having been
swallowed — `main` returns normally, so the process exits 0. -/
def rollbackOutcome (db0 : TargetDB) : MainOutcome :=
  { committedDb := db0, commits := 0, rolledBack := true,
    errorSurfaced := true, exitCode := 0, reportedLastId := none }

/-- `main` with a PostgreSQL target (lines 530–563): one transaction over
all batches; the loop ends with a final `merge_torrents` call on an empty
fetch (whose `processed` is 0); in stripped mode `results["last"]["id"]` is
then read from that final result — its `last` field — and echoed; on any
exception the blanket handler rolls back; otherwise the run commits exactly
once.  The exit code is 0 on both paths, since the handler swallows the
exception. -/
def mainRunPg (stripped copyMgr : Bool) (src : SourceDB) (db0 : TargetDB) :
    MainOutcome :=
  let batches := chunkList 1000 (strippedSelection stripped src)
  match pgRunBatches copyMgr src db0 batches with
  | .error _ => rollbackOutcome db0
  | .ok (db1, _) =>
    match pgMergeTorrents copyMgr src 2 db1 [] with
    | .error _ => rollbackOutcome db0
    | .ok (db2, rLast) =>
      if stripped then
        match rLast.last with
        | none => rollbackOutcome db0
        | some t =>
          { committedDb := db2, commits := 1, rolledBack := false,
            errorSurfaced := false, exitCode := 0, reportedLastId := some t.id }
      else
        { committedDb := db2, commits := 1, rolledBack := false,
          errorSurfaced := false, exitCode := 0, reportedLastId := none }

/-! ### Fast mode: constraint and index suspension (lines 271–357) -/

/-- A row of `pg_constraint` as the script sees it: constraint name, table
name, and whether the constraint is backed by an index of the same name
(unique and primary-key constraints are; foreign keys and checks are not). -/
structure PgConstraint where
  conname : String
  relname : String
  backed : Bool
deriving DecidableEq, Repr

/-- A row of `pg_indexes`: index name and its table. -/
structure PgIndex where
  indexname : String
  tablename : String
deriving DecidableEq, Repr

/-- The target catalog: its constraints, and the indices that do not back a
constraint (the backing index of a `backed` constraint exists exactly while
the constraint does). -/
structure PgCatalog where
  constraints : List PgConstraint
  plainIndices : List PgIndex
deriving DecidableEq, Repr

/-- `relname IN ('torrents', 'files')`. -/
def onCoreTables (rel : String) : Bool := rel = "torrents" || rel = "files"

/-- The name of the content-hash uniqueness constraint, excluded from every
capture and drop (lines 280, 294, 306). -/
def hashKeyName : String := "torrents_info_hash_key"

/-- `generate_constraint_statements` (lines 271–299): the constraints on the
two core tables except the content-hash key, captured both as re-create and
as drop statements. -/
def capturedConstraints (cat : PgCatalog) : List PgConstraint :=
  cat.constraints.filter (fun c => onCoreTables c.relname && ¬ c.conname = hashKeyName)

/-- The index backing a unique or primary-key constraint carries the
constraint's name. -/
def backingIndex (c : PgConstraint) : PgIndex :=
  { indexname := c.conname, tablename := c.relname }

/-- Every index present in the catalog: the plain ones plus the backing
indices of the backed constraints. -/
def allIndices (cat : PgCatalog) : List PgIndex :=
  cat.plainIndices ++ (cat.constraints.filter (fun c => c.backed)).map backingIndex

/-- `get_indices` (lines 301–308): the `pg_indexes` rows on the two core
tables, except any index named like the content-hash key. -/
def visibleIndices (cat : PgCatalog) : List PgIndex :=
  (allIndices cat).filter (fun i => onCoreTables i.tablename && ¬ i.indexname = hashKeyName)

/-- Executing the captured `ALTER TABLE … DROP CONSTRAINT` statements
(lines 319–320): each statement removes the constraint with the named table
and name (taking its backing index with it). -/
def dropConstraints (cat : PgCatalog) (cs : List PgConstraint) : PgCatalog :=
  { cat with
      constraints := cat.constraints.filter
        (fun c => ¬ cs.any (fun d => d.relname = c.relname && d.conname = c.conname)) }

/-- Executing `DROP INDEX name, …` (line 330): removes the named indices
(at this point of the flow all of them are plain). -/
def dropIndicesByName (cat : PgCatalog) (names : List String) : PgCatalog :=
  { cat with plainIndices := cat.plainIndices.filter (fun i => ¬ names.contains i.indexname) }

/-- The catalog while the import runs in fast mode: captured constraints
dropped first, then the indices that were still visible afterwards. -/
def fastModeDuring (cat : PgCatalog) : PgCatalog :=
  dropIndicesByName (dropConstraints cat (capturedConstraints cat))
    ((visibleIndices (dropConstraints cat (capturedConstraints cat))).map
      (fun i => i.indexname))

/-- `PostgreSQL.before_import` in fast mode (lines 310–338): capture the
constraint statements, drop those constraints, then collect the surviving
indices of the two core tables and drop them.  An empty collected index list
would render the `DROP INDEX ` statement with no names, which the server
rejects. -/
def beforeImportFast (cat : PgCatalog) :
    Except MergeError (PgCatalog × List PgConstraint × List PgIndex) :=
  if (visibleIndices (dropConstraints cat (capturedConstraints cat))).isEmpty then
    .error .emptyDropIndex
  else
    .ok (fastModeDuring cat, capturedConstraints cat,
      visibleIndices (dropConstraints cat (capturedConstraints cat)))

/-- `PostgreSQL.after_import` in fast mode (lines 340–357): re-create the
captured indices first, then the captured constraints. -/
def afterImportFast (cat : PgCatalog) (cs : List PgConstraint) (idx : List PgIndex) :
    PgCatalog :=
  { constraints := cat.constraints ++ cs,
    plainIndices := cat.plainIndices ++ idx }

/-! ### The SQLite text factory (line 188)

`connection.text_factory = lambda x: x.decode("utf8", errors="replace")`:
every TEXT value read from an embedded source is decoded as UTF-8 with
invalid byte sequences replaced by U+FFFD (one replacement character per
maximal invalid subpart, as CPython's UTF-8 decoder does). -/

/-- The Unicode replacement character U+FFFD. -/
def repChar : Char := Char.ofNat 0xFFFD

/-- Whether a byte is a UTF-8 continuation byte. -/
def isCont (b : Nat) : Bool := 0x80 ≤ b && b ≤ 0xBF

/-- Parse one UTF-8 sequence: `b` is the lead byte, `rest` the bytes after
it.  Returns the decoded character (or `none` if the sequence at `b` is
invalid) together with how many bytes after the lead belong to the maximal
subpart (the bytes a replacing decoder skips beyond the lead).  Overlong
encodings, surrogates and values above U+10FFFF are rejected via the
restricted ranges of the first continuation byte. -/
def utf8Parse1 (b : Nat) (rest : List Nat) : Option Char × Nat :=
  if b ≤ 0x7F then (some (Char.ofNat b), 0)
  else if 0xC2 ≤ b && b ≤ 0xDF then
    match rest with
    | c1 :: _ =>
      if isCont c1 then (some (Char.ofNat ((b - 0xC0) * 64 + (c1 - 0x80))), 1)
      else (none, 0)
    | [] => (none, 0)
  else if 0xE0 ≤ b && b ≤ 0xEF then
    let lo1 := if b = 0xE0 then 0xA0 else 0x80
    let hi1 := if b = 0xED then 0x9F else 0xBF
    match rest with
    | c1 :: rest1 =>
      if lo1 ≤ c1 && c1 ≤ hi1 then
        match rest1 with
        | c2 :: _ =>
          if isCont c2 then
            (some (Char.ofNat ((b - 0xE0) * 4096 + (c1 - 0x80) * 64 + (c2 - 0x80))), 2)
          else (none, 1)
        | [] => (none, 1)
      else (none, 0)
    | [] => (none, 0)
  else if 0xF0 ≤ b && b ≤ 0xF4 then
    let lo1 := if b = 0xF0 then 0x90 else 0x80
    let hi1 := if b = 0xF4 then 0x8F else 0xBF
    match rest with
    | c1 :: rest1 =>
      if lo1 ≤ c1 && c1 ≤ hi1 then
        match rest1 with
        | c2 :: rest2 =>
          if isCont c2 then
            match rest2 with
            | c3 :: _ =>
              if isCont c3 then
                (some (Char.ofNat ((b - 0xF0) * 262144 + (c1 - 0x80) * 4096 +
                  (c2 - 0x80) * 64 + (c3 - 0x80))), 3)
              else (none, 2)
            | [] => (none, 2)
          else (none, 1)
        | [] => (none, 1)
      else (none, 0)
    | [] => (none, 0)
  else (none, 0)

/-- `bytes.decode("utf8", errors="replace")`: total decoding, emitting one
U+FFFD per maximal invalid subpart.  The structural fuel is the byte count:
every step consumes at least the lead byte, so `bs.length` steps suffice. -/
def utf8DecodeReplaceFuel : Nat → List Nat → List Char
  | 0, _ => []
  | _, [] => []
  | fuel + 1, b :: rest =>
    match utf8Parse1 b rest with
    | (some c, k) => c :: utf8DecodeReplaceFuel fuel (rest.drop k)
    | (none, k) => repChar :: utf8DecodeReplaceFuel fuel (rest.drop k)

/-- `bytes.decode("utf8", errors="replace")`. -/
def utf8DecodeReplace (bs : List Nat) : List Char :=
  utf8DecodeReplaceFuel bs.length bs

/-- `bytes.decode("utf8")` with the default strict handler: fails on the
first invalid sequence. -/
def utf8DecodeStrictFuel : Nat → List Nat → Option (List Char)
  | 0, _ => some []
  | _, [] => some []
  | fuel + 1, b :: rest =>
    match utf8Parse1 b rest with
    | (some c, k) => (utf8DecodeStrictFuel fuel (rest.drop k)).map (fun cs => c :: cs)
    | (none, _) => none

/-- `bytes.decode("utf8")` (the default the script overrides). -/
def utf8DecodeStrict (bs : List Nat) : Option (List Char) :=
  utf8DecodeStrictFuel bs.length bs

/-- The text factory installed on every non-shared SQLite connection
(line 188). -/
def textFactory (bs : List Nat) : Text := utf8DecodeReplace bs

/-! ### Counting lemmas -/

theorem sqliteMergeCounts_processed (src : SourceDB) (ms : Bool) :
    ∀ (ts : List TorrentRow) (st : SqliteState),
      (sqliteMergeCounts src ms st ts).2.2.2 = ts.length := by
  intro ts
  induction ts with
  | nil => intro st; rfl
  | cons t rest ih =>
    intro st
    simp only [sqliteMergeCounts, List.length_cons]
    rw [ih]

theorem sqliteMergeCounts_sum (src : SourceDB) (ms : Bool) :
    ∀ (ts : List TorrentRow) (st : SqliteState),
      (sqliteMergeCounts src ms st ts).2.1 + (sqliteMergeCounts src ms st ts).2.2.1 =
        (sqliteMergeCounts src ms st ts).2.2.2 := by
  intro ts
  induction ts with
  | nil => intro st; rfl
  | cons t rest ih =>
    intro st
    simp only [sqliteMergeCounts]
    have h := ih (sqliteMergeOne src ms st t).1
    cases hb : (sqliteMergeOne src ms st t).2 <;> simp <;> omega

theorem pgInsertAll_length_le (ts : List TorrentRow) :
    ∀ db : TargetDB, (pgInsertAll db ts).2.length ≤ ts.length := by
  induction ts with
  | nil => intro db; simp [pgInsertAll]
  | cons t rest ih =>
    intro db
    rcases h : insertTorrentOrSkip db t with ⟨db1, onid⟩
    cases onid with
    | none => simp only [pgInsertAll, h]; exact Nat.le_succ_of_le (ih db1)
    | some nid =>
      simp only [pgInsertAll, h, List.length_cons]
      exact Nat.succ_le_succ (ih db1)

theorem fixBytesName_length (ts : List TorrentRow) :
    (fixBytesName ts).length = ts.length := by
  simp [fixBytesName]

theorem pgMergeTorrents_ok_counts (copyMgr : Bool) (src : SourceDB) :
    ∀ (fuel : Nat) (db : TargetDB) (ts : List TorrentRow) (db' : TargetDB)
      (r : MergeResult),
      pgMergeTorrents copyMgr src fuel db ts = .ok (db', r) →
      r.processed = ts.length ∧ r.inserted + r.failed = r.processed := by
  intro fuel
  induction fuel with
  | zero => intro db ts db' r h; exact absurd h (by simp [pgMergeTorrents, pgMergeTorrentsGen])
  | succ fuel ih =>
    intro db ts db' r h
    rw [pgMergeTorrents, pgMergeTorrentsGen] at h
    by_cases hn : ts.any (fun t => hasNul t.name)
    · rw [pgExecuteValuesTorrents, if_pos hn] at h
      have := ih db (fixBytesName ts) db' r h
      rw [fixBytesName_length] at this
      exact this
    · rw [pgExecuteValuesTorrents, if_neg hn] at h
      rcases hf : pgMergeFiles copyMgr src (pgInsertAll db ts).1
          (buildIdMap (pgInsertAll db ts).2 ts) with e | db2
      · simp only [hf] at h
        exact Except.noConfusion h
      · simp only [hf, Except.ok.injEq, Prod.mk.injEq] at h
        rcases h with ⟨_, hr⟩
        subst hr
        refine ⟨rfl, ?_⟩
        have := pgInsertAll_length_le ts db
        simp only
        omega

/-- Sum of a numeric field over a result list. -/
def sumBy (g : MergeResult → Nat) (rs : List MergeResult) : Nat :=
  (rs.map g).sum

theorem sumBy_take_mono (g : MergeResult → Nat) (rs : List MergeResult) (n : Nat) :
    sumBy g (rs.take n) ≤ sumBy g (rs.take (n + 1)) := by
  rw [sumBy, sumBy, List.take_succ, List.map_append, List.sum_append]
  exact Nat.le_add_right _ _

theorem sqliteRunBatches_results (src : SourceDB) (ms : Bool) :
    ∀ (bs : List (List TorrentRow)) (st : SqliteState),
      ∀ r ∈ (sqliteRunBatches src ms st bs).2,
        r.inserted + r.failed = r.processed := by
  intro bs
  induction bs with
  | nil => intro st r hr; simp [sqliteRunBatches] at hr
  | cons b rest ih =>
    intro st r hr
    simp only [sqliteRunBatches, List.mem_cons] at hr
    rcases hr with hr | hr
    · subst hr
      simp only [sqliteMergeTorrents]
      have h1 := sqliteMergeCounts_sum src ms b st
      omega
    · exact ih _ r hr

theorem pgRunBatches_results (copyMgr : Bool) (src : SourceDB) :
    ∀ (bs : List (List TorrentRow)) (db db' : TargetDB) (rs : List MergeResult),
      pgRunBatches copyMgr src db bs = .ok (db', rs) →
      ∀ r ∈ rs, r.inserted + r.failed = r.processed := by
  intro bs
  induction bs with
  | nil =>
    intro db db' rs h r hr
    simp only [pgRunBatches, Except.ok.injEq, Prod.mk.injEq] at h
    rcases h with ⟨_, h2⟩; subst h2; simp at hr
  | cons b rest ih =>
    intro db db' rs h r hr
    rw [pgRunBatches] at h
    rcases h1 : pgMergeTorrents copyMgr src 2 db b with e | ⟨db1, r1⟩
    · simp only [h1] at h
      exact Except.noConfusion h
    · simp only [h1] at h
      rcases h2 : pgRunBatches copyMgr src db1 rest with e | ⟨db2, rs2⟩
      · simp only [h2] at h
        exact Except.noConfusion h
      · simp only [h2, Except.ok.injEq, Prod.mk.injEq] at h
        rcases h with ⟨hdb, hrs⟩
        subst hrs
        rcases List.mem_cons.mp hr with hr | hr
        · subst hr
          exact (pgMergeTorrents_ok_counts copyMgr src 2 db b db1 r h1).2
        · exact ih db1 db2 rs2 h2 r hr

/-! ### Hash-presence lemmas (SQLite path) -/

theorem insertTorrentOrSkip_present_eq {db : TargetDB} {t : TorrentRow}
    (h : hashPresent db t.info_hash = true) :
    insertTorrentOrSkip db t = (db, none) := by
  rw [insertTorrentOrSkip, if_pos h]

theorem insertTorrentOrSkip_absent_eq {db : TargetDB} {t : TorrentRow}
    (h : hashPresent db t.info_hash = false) :
    insertTorrentOrSkip db t =
      ({ db with
          torrents := db.torrents ++ [{ t with id := db.nextTorrentId }],
          nextTorrentId := db.nextTorrentId + 1 },
        some db.nextTorrentId) := by
  rw [insertTorrentOrSkip, if_neg (by simp [h])]

theorem sqliteMergeOne_present_eq (src : SourceDB) (ms : Bool) {st : SqliteState}
    {t : TorrentRow} (h : hashPresent st.db t.info_hash = true) :
    sqliteMergeOne src ms st t =
      (if st.lastInsertRowid = 0 then (st, false)
       else (sqliteMergeFiles src ms st st.lastInsertRowid t.id, true)) := by
  rw [sqliteMergeOne, insertTorrentOrSkip_present_eq h]

theorem sqliteMergeOne_absent_eq (src : SourceDB) (ms : Bool) {st : SqliteState}
    {t : TorrentRow} (h : hashPresent st.db t.info_hash = false) :
    sqliteMergeOne src ms st t =
      (if st.db.nextTorrentId = 0 then
        ({ db := { st.db with
              torrents := st.db.torrents ++ [{ t with id := st.db.nextTorrentId }],
              nextTorrentId := st.db.nextTorrentId + 1 },
           lastInsertRowid := st.db.nextTorrentId }, false)
       else
        (sqliteMergeFiles src ms
          { db := { st.db with
              torrents := st.db.torrents ++ [{ t with id := st.db.nextTorrentId }],
              nextTorrentId := st.db.nextTorrentId + 1 },
            lastInsertRowid := st.db.nextTorrentId }
          st.db.nextTorrentId t.id, true)) := by
  rw [sqliteMergeOne, insertTorrentOrSkip_absent_eq h]

theorem hashPresent_mono {db db' : TargetDB}
    (hsub : ∀ t, t ∈ db.torrents → t ∈ db'.torrents) {h : List Nat} :
    hashPresent db h = true → hashPresent db' h = true := by
  simp only [hashPresent, List.any_eq_true, decide_eq_true_eq]
  rintro ⟨t, ht, heq⟩
  exact ⟨t, hsub t ht, heq⟩

theorem sqliteInsertFiles_torrents (fk : Nat) :
    ∀ (rows : List FileRow) (st : SqliteState),
      (sqliteInsertFiles fk st rows).db.torrents = st.db.torrents := by
  intro rows
  induction rows with
  | nil => intro st; rfl
  | cons f rest ih =>
    intro st
    rw [sqliteInsertFiles, ih]
    rfl

theorem sqliteMergeFiles_torrents (src : SourceDB) (ms : Bool) (st : SqliteState)
    (fk oldId : Nat) :
    (sqliteMergeFiles src ms st fk oldId).db.torrents = st.db.torrents := by
  rw [sqliteMergeFiles]
  by_cases h : ms
  · rw [if_pos h, sqliteInsertFiles_torrents]
  · rw [if_neg h]

theorem sqliteMergeOne_sub (src : SourceDB) (ms : Bool) (st : SqliteState)
    (t : TorrentRow) :
    ∀ u, u ∈ st.db.torrents → u ∈ (sqliteMergeOne src ms st t).1.db.torrents := by
  intro u hu
  by_cases h : hashPresent st.db t.info_hash
  · rw [sqliteMergeOne_present_eq src ms h]
    split
    · exact hu
    · rw [sqliteMergeFiles_torrents]
      exact hu
  · rw [sqliteMergeOne_absent_eq src ms (Bool.eq_false_iff.mpr h)]
    split
    · exact List.mem_append_left _ hu
    · rw [sqliteMergeFiles_torrents]
      exact List.mem_append_left _ hu

theorem sqliteMergeOne_adds (src : SourceDB) (ms : Bool) (st : SqliteState)
    (t : TorrentRow) :
    hashPresent (sqliteMergeOne src ms st t).1.db t.info_hash = true := by
  by_cases h : hashPresent st.db t.info_hash
  · rw [sqliteMergeOne_present_eq src ms h]
    split
    · exact h
    · refine hashPresent_mono ?_ h
      intro u hu
      rw [sqliteMergeFiles_torrents]
      exact hu
  · rw [sqliteMergeOne_absent_eq src ms (Bool.eq_false_iff.mpr h)]
    split
    · simp [hashPresent]
    · have hadd : hashPresent ({ st.db with
          torrents := st.db.torrents ++ [{ t with id := st.db.nextTorrentId }],
          nextTorrentId := st.db.nextTorrentId + 1 } : TargetDB) t.info_hash = true := by
        simp [hashPresent]
      refine hashPresent_mono ?_ hadd
      intro u hu
      rw [sqliteMergeFiles_torrents]
      exact hu

theorem sqliteMergeCounts_sub (src : SourceDB) (ms : Bool) :
    ∀ (ts : List TorrentRow) (st : SqliteState) (u : TorrentRow),
      u ∈ st.db.torrents → u ∈ (sqliteMergeCounts src ms st ts).1.db.torrents := by
  intro ts
  induction ts with
  | nil => intro st u hu; exact hu
  | cons t rest ih =>
    intro st u hu
    exact ih _ u (sqliteMergeOne_sub src ms st t u hu)

theorem sqliteMergeCounts_present (src : SourceDB) (ms : Bool) :
    ∀ (ts : List TorrentRow) (st : SqliteState) (t : TorrentRow), t ∈ ts →
      hashPresent (sqliteMergeCounts src ms st ts).1.db t.info_hash = true := by
  intro ts
  induction ts with
  | nil => intro st t ht; simp at ht
  | cons a rest ih =>
    intro st t ht
    rcases List.mem_cons.mp ht with h | h
    · subst h
      exact hashPresent_mono (fun u hu => sqliteMergeCounts_sub src ms rest _ u hu)
        (sqliteMergeOne_adds src ms st t)
    · exact ih _ t h

theorem sqliteRunBatches_sub (src : SourceDB) (ms : Bool) :
    ∀ (bs : List (List TorrentRow)) (st : SqliteState) (u : TorrentRow),
      u ∈ st.db.torrents → u ∈ (sqliteRunBatches src ms st bs).1.db.torrents := by
  intro bs
  induction bs with
  | nil => intro st u hu; exact hu
  | cons b rest ih =>
    intro st u hu
    exact ih _ u (sqliteMergeCounts_sub src ms b st u hu)

theorem sqliteRunBatches_present (src : SourceDB) (ms : Bool) :
    ∀ (bs : List (List TorrentRow)) (st : SqliteState) (t : TorrentRow),
      t ∈ bs.flatten →
      hashPresent (sqliteRunBatches src ms st bs).1.db t.info_hash = true := by
  intro bs
  induction bs with
  | nil => intro st t ht; simp at ht
  | cons b rest ih =>
    intro st t ht
    rw [List.flatten_cons] at ht
    rcases List.mem_append.mp ht with h | h
    · exact hashPresent_mono
        (fun u hu => sqliteRunBatches_sub src ms rest _ u hu)
        (sqliteMergeCounts_present src ms b st t h)
    · exact ih _ t h

/-! ### Rerun lemmas (SQLite path) -/

theorem sqliteMergeOne_rerun (src : SourceDB) (ms : Bool) {st : SqliteState}
    {t : TorrentRow} (h : hashPresent st.db t.info_hash = true)
    (h0 : st.lastInsertRowid = 0) : sqliteMergeOne src ms st t = (st, false) := by
  rw [sqliteMergeOne_present_eq src ms h, if_pos h0]

theorem sqliteMergeCounts_rerun (src : SourceDB) (ms : Bool) :
    ∀ (ts : List TorrentRow) (st : SqliteState),
      (∀ t ∈ ts, hashPresent st.db t.info_hash = true) →
      st.lastInsertRowid = 0 →
      sqliteMergeCounts src ms st ts = (st, ts.length, 0, ts.length) := by
  intro ts
  induction ts with
  | nil => intro st _ _; rfl
  | cons t rest ih =>
    intro st hp h0
    have h1 := sqliteMergeOne_rerun src ms (hp t (List.mem_cons_self t rest)) h0
    have h2 := ih st (fun u hu => hp u (List.mem_cons_of_mem t hu)) h0
    simp [sqliteMergeCounts, h1, h2]

theorem sqliteRunBatches_rerun (src : SourceDB) (ms : Bool) :
    ∀ (bs : List (List TorrentRow)) (st : SqliteState),
      (∀ t ∈ bs.flatten, hashPresent st.db t.info_hash = true) →
      st.lastInsertRowid = 0 →
      sqliteRunBatches src ms st bs =
        (st, bs.map (fun b =>
          { failed := b.length, inserted := 0, processed := b.length,
            last := b.getLast? })) := by
  intro bs
  induction bs with
  | nil => intro st _ _; rfl
  | cons b rest ih =>
    intro st hp h0
    have hb : ∀ t ∈ b, hashPresent st.db t.info_hash = true := by
      intro t ht
      exact hp t (by rw [List.flatten_cons]; exact List.mem_append_left _ ht)
    have h1 := sqliteMergeCounts_rerun src ms b st hb h0
    have h2 := ih st
      (fun t ht => hp t (by rw [List.flatten_cons]; exact List.mem_append_right _ ht)) h0
    simp [sqliteRunBatches, sqliteMergeTorrents, h1, h2]

/-! ### NUL-stripping lemmas -/

theorem stripNul_hasNul (s : Text) : hasNul (stripNul s) = false := by
  rw [hasNul, List.any_eq_false]
  intro c hc
  have h2 := (List.mem_filter.mp hc).2
  simp only [decide_eq_true_eq] at h2 ⊢
  exact h2

theorem fixBytesName_noNul (ts : List TorrentRow) :
    ((fixBytesName ts).any (fun t => hasNul t.name)) = false := by
  rw [List.any_eq_false]
  intro t ht
  rcases List.mem_map.mp (by simpa [fixBytesName] using ht) with ⟨u, hu, rfl⟩
  simp [stripNul_hasNul]

theorem fixBytesName_getLast (ts : List TorrentRow) :
    (fixBytesName ts).getLast? =
      ts.getLast?.map (fun t => { t with name := stripNul t.name }) := by
  simp [fixBytesName, List.getLast?_map]

/-! ### Hash-presence lemmas (PostgreSQL path) -/

theorem insertTorrentOrSkip_sub (db : TargetDB) (t : TorrentRow) :
    ∀ u, u ∈ db.torrents → u ∈ (insertTorrentOrSkip db t).1.torrents := by
  intro u hu
  by_cases h : hashPresent db t.info_hash
  · rw [insertTorrentOrSkip_present_eq h]
    exact hu
  · rw [insertTorrentOrSkip_absent_eq (Bool.eq_false_iff.mpr h)]
    exact List.mem_append_left _ hu

theorem insertTorrentOrSkip_adds (db : TargetDB) (t : TorrentRow) :
    hashPresent (insertTorrentOrSkip db t).1 t.info_hash = true := by
  by_cases h : hashPresent db t.info_hash
  · rw [insertTorrentOrSkip_present_eq h]
    exact h
  · rw [insertTorrentOrSkip_absent_eq (Bool.eq_false_iff.mpr h)]
    simp [hashPresent]

theorem pgInsertAll_sub :
    ∀ (ts : List TorrentRow) (db : TargetDB) (u : TorrentRow),
      u ∈ db.torrents → u ∈ (pgInsertAll db ts).1.torrents := by
  intro ts
  induction ts with
  | nil => intro db u hu; exact hu
  | cons t rest ih =>
    intro db u hu
    have hstep := insertTorrentOrSkip_sub db t u hu
    rcases h : insertTorrentOrSkip db t with ⟨db1, onid⟩
    rw [h] at hstep
    cases onid with
    | none => rw [pgInsertAll, h]; exact ih db1 u hstep
    | some nid => rw [pgInsertAll, h]; exact ih db1 u hstep

theorem pgInsertAll_present :
    ∀ (ts : List TorrentRow) (db : TargetDB) (t : TorrentRow), t ∈ ts →
      hashPresent (pgInsertAll db ts).1 t.info_hash = true := by
  intro ts
  induction ts with
  | nil => intro db t ht; simp at ht
  | cons a rest ih =>
    intro db t ht
    rcases List.mem_cons.mp ht with h | h
    · subst h
      have hadds := insertTorrentOrSkip_adds db t
      rcases hs : insertTorrentOrSkip db t with ⟨db1, onid⟩
      rw [hs] at hadds
      cases onid with
      | none =>
        rw [pgInsertAll, hs]
        exact hashPresent_mono (fun u hu => pgInsertAll_sub rest db1 u hu) hadds
      | some nid =>
        rw [pgInsertAll, hs]
        exact hashPresent_mono (fun u hu => pgInsertAll_sub rest db1 u hu) hadds
    · rcases hs : insertTorrentOrSkip db a with ⟨db1, onid⟩
      cases onid with
      | none => rw [pgInsertAll, hs]; exact ih db1 t h
      | some nid => rw [pgInsertAll, hs]; exact ih db1 t h

theorem pgInsertAll_rerun :
    ∀ (ts : List TorrentRow) (db : TargetDB),
      (∀ t ∈ ts, hashPresent db t.info_hash = true) →
      pgInsertAll db ts = (db, []) := by
  intro ts
  induction ts with
  | nil => intro db _; rfl
  | cons t rest ih =>
    intro db hp
    rw [pgInsertAll, insertTorrentOrSkip_present_eq (hp t (List.mem_cons_self t rest))]
    exact ih db (fun u hu => hp u (List.mem_cons_of_mem t hu))

/-! ### The file-merge phase leaves the torrents table unchanged -/

theorem pgCopyRows_torrents :
    ∀ (rows : List FileRow) (db db' : TargetDB),
      pgCopyRows db rows = .ok db' → db'.torrents = db.torrents := by
  intro rows
  induction rows with
  | nil =>
    intro db db' h
    simp only [pgCopyRows, Except.ok.injEq] at h
    rw [← h]
  | cons f rest ih =>
    intro db db' h
    rw [pgCopyRows] at h
    by_cases h1 : fileTextHasNul f
    · simp [h1] at h
    · by_cases h2 : readmeConflict db f
      · simp [h1, h2] at h
      · simp only [h1, h2, Bool.false_eq_true, if_false] at h
        exact ih (insertFileRow db f.torrent_id f) db' h

theorem pgInsertFilesPage_torrents :
    ∀ (rows : List FileRow) (db : TargetDB),
      (pgInsertFilesPage db rows).torrents = db.torrents := by
  intro rows
  induction rows with
  | nil => intro db; rfl
  | cons f rest ih =>
    intro db
    rw [pgInsertFilesPage]
    by_cases h : readmeConflict db f
    · rw [if_pos h]; exact ih db
    · rw [if_neg h]; exact ih _

theorem pgFallbackPage_torrents (m : List (Nat × Nat)) (db : TargetDB)
    (page : List FileRow) (db' : TargetDB) :
    pgFallbackPage m db page = .ok db' → db'.torrents = db.torrents := by
  intro h
  rw [pgFallbackPage] at h
  split at h
  · split at h
    · exact absurd h (by simp)
    · simp only [Except.ok.injEq] at h
      rw [← h, pgInsertFilesPage_torrents]
  · simp only [Except.ok.injEq] at h
    rw [← h, pgInsertFilesPage_torrents]

theorem foldPages_torrents (m : List (Nat × Nat)) :
    ∀ (pages : List (List FileRow)) (db db' : TargetDB),
      foldPages (pgFallbackPage m) db pages = .ok db' → db'.torrents = db.torrents := by
  intro pages
  induction pages with
  | nil =>
    intro db db' h
    simp only [foldPages, Except.ok.injEq] at h
    rw [← h]
  | cons p rest ih =>
    intro db db' h
    rw [foldPages] at h
    rcases h1 : pgFallbackPage m db p with e | db1
    · simp only [h1] at h
      exact Except.noConfusion h
    · simp only [h1] at h
      rw [ih _ db' h, pgFallbackPage_torrents m db p db1 h1]

theorem pgMergeFiles_torrents (c : Bool) (src : SourceDB) (db : TargetDB)
    (m : List (Nat × Nat)) (db' : TargetDB) :
    pgMergeFiles c src db m = .ok db' → db'.torrents = db.torrents := by
  intro h
  rw [pgMergeFiles] at h
  by_cases hc : c
  · rw [if_pos hc, pgMergeFilesCopy] at h
    rcases h1 : pgCopyRows db (pgRewriteRows m false (sourceFilesForIds src (m.map Prod.fst)))
        with e | db1
    · simp only [h1] at h
      cases e <;> simp_all <;> exact pgCopyRows_torrents _ db db' h
    · simp only [h1, Except.ok.injEq] at h
      rw [← h]
      exact pgCopyRows_torrents _ db db1 h1
  · rw [if_neg hc, pgMergeFilesFallback] at h
    exact foldPages_torrents m _ db db' h

/-! ### Empty-map file merge is a no-op -/

theorem sourceFilesForIds_nil (src : SourceDB) : sourceFilesForIds src [] = [] := by
  simp [sourceFilesForIds]

theorem pgMergeFiles_nil (c : Bool) (src : SourceDB) (db : TargetDB) :
    pgMergeFiles c src db [] = .ok db := by
  rw [pgMergeFiles]
  by_cases hc : c
  · rw [if_pos hc, pgMergeFilesCopy]
    simp [sourceFilesForIds_nil, pgRewriteRows, pgCopyRows]
  · rw [if_neg hc, pgMergeFilesFallback]
    simp only [List.map_nil, sourceFilesForIds_nil]
    rw [chunkList]
    simp [foldPages]

/-! ### Merge-level presence and rerun lemmas (PostgreSQL path) -/

theorem pgMergeTorrents_ok_present (c : Bool) (src : SourceDB) :
    ∀ (fuel : Nat) (db : TargetDB) (ts : List TorrentRow) (db' : TargetDB)
      (r : MergeResult),
      pgMergeTorrents c src fuel db ts = .ok (db', r) →
      (∀ u, u ∈ db.torrents → u ∈ db'.torrents) ∧
      (∀ t ∈ ts, hashPresent db' t.info_hash = true) := by
  intro fuel
  induction fuel with
  | zero =>
    intro db ts db' r h
    exact absurd h (by simp [pgMergeTorrents, pgMergeTorrentsGen])
  | succ fuel ih =>
    intro db ts db' r h
    rw [pgMergeTorrents, pgMergeTorrentsGen] at h
    by_cases hn : ts.any (fun t => hasNul t.name)
    · rw [pgExecuteValuesTorrents, if_pos hn] at h
      rcases ih db (fixBytesName ts) db' r h with ⟨hsub, hpres⟩
      refine ⟨hsub, ?_⟩
      intro t ht
      have hmem : ({ t with name := stripNul t.name } : TorrentRow) ∈ fixBytesName ts :=
        List.mem_map_of_mem _ ht
      exact hpres { t with name := stripNul t.name } hmem
    · rw [pgExecuteValuesTorrents, if_neg hn] at h
      rcases hf : pgMergeFiles c src (pgInsertAll db ts).1
          (buildIdMap (pgInsertAll db ts).2 ts) with e | db2
      · simp only [hf] at h
        exact Except.noConfusion h
      · simp only [hf, Except.ok.injEq, Prod.mk.injEq] at h
        rcases h with ⟨hdb, _⟩
        subst hdb
        have htor := pgMergeFiles_torrents c src (pgInsertAll db ts).1
          (buildIdMap (pgInsertAll db ts).2 ts) db2 hf
        constructor
        · intro u hu
          rw [htor]
          exact pgInsertAll_sub ts db u hu
        · intro t ht
          refine hashPresent_mono (fun u hu => ?_) (pgInsertAll_present ts db t ht)
          rw [htor]
          exact hu

theorem pgMergeTorrents_rerun_noNul (c : Bool) (src : SourceDB) (fuel : Nat)
    {db : TargetDB} {ts : List TorrentRow}
    (hp : ∀ t ∈ ts, hashPresent db t.info_hash = true)
    (hn : (ts.any (fun t => hasNul t.name)) = false) :
    pgMergeTorrents c src (fuel + 1) db ts =
      .ok (db, { failed := ts.length, inserted := 0, processed := ts.length,
                 last := ts.getLast? }) := by
  rw [pgMergeTorrents, pgMergeTorrentsGen, pgExecuteValuesTorrents,
    if_neg (by simp [hn]), pgInsertAll_rerun ts db hp]
  simp [buildIdMap, pgMergeFiles_nil]

theorem pgMergeTorrents_rerun (c : Bool) (src : SourceDB)
    {db : TargetDB} {ts : List TorrentRow}
    (hp : ∀ t ∈ ts, hashPresent db t.info_hash = true) :
    ∃ r, pgMergeTorrents c src 2 db ts = .ok (db, r) ∧
      r.inserted = 0 ∧ r.failed = ts.length ∧ r.processed = ts.length := by
  by_cases hn : ts.any (fun t => hasNul t.name)
  · have hp' : ∀ t ∈ fixBytesName ts, hashPresent db t.info_hash = true := by
      intro t ht
      rcases List.mem_map.mp (by simpa [fixBytesName] using ht) with ⟨u, hu, rfl⟩
      exact hp u hu
    have h2 := pgMergeTorrents_rerun_noNul c src 0 hp' (fixBytesName_noNul ts)
    refine ⟨{ failed := (fixBytesName ts).length, inserted := 0,
              processed := (fixBytesName ts).length,
              last := (fixBytesName ts).getLast? }, ?_, rfl, ?_, ?_⟩
    · rw [pgMergeTorrents]
      show pgMergeTorrentsGen pgExecuteValuesTorrents c src (1 + 1) db ts = _
      rw [pgMergeTorrentsGen, pgExecuteValuesTorrents, if_pos hn]
      exact h2
    · simp [fixBytesName_length]
    · simp [fixBytesName_length]
  · exact ⟨_, pgMergeTorrents_rerun_noNul c src 1
      hp (Bool.eq_false_iff.mpr hn), rfl, rfl, rfl⟩

theorem pgRunBatches_ok_present (c : Bool) (src : SourceDB) :
    ∀ (bs : List (List TorrentRow)) (db db' : TargetDB) (rs : List MergeResult),
      pgRunBatches c src db bs = .ok (db', rs) →
      (∀ u, u ∈ db.torrents → u ∈ db'.torrents) ∧
      (∀ t ∈ bs.flatten, hashPresent db' t.info_hash = true) := by
  intro bs
  induction bs with
  | nil =>
    intro db db' rs h
    simp only [pgRunBatches, Except.ok.injEq, Prod.mk.injEq] at h
    rcases h with ⟨h1, _⟩
    subst h1
    exact ⟨fun u hu => hu, by simp⟩
  | cons b rest ih =>
    intro db db' rs h
    rw [pgRunBatches] at h
    rcases h1 : pgMergeTorrents c src 2 db b with e | ⟨db1, r1⟩
    · simp only [h1] at h
      exact Except.noConfusion h
    · simp only [h1] at h
      rcases h2 : pgRunBatches c src db1 rest with e | ⟨db2, rs2⟩
      · simp only [h2] at h
        exact Except.noConfusion h
      · simp only [h2, Except.ok.injEq, Prod.mk.injEq] at h
        rcases h with ⟨hdb, _⟩
        subst hdb
        rcases pgMergeTorrents_ok_present c src 2 db b db1 r1 h1 with ⟨hsub1, hpres1⟩
        rcases ih db1 db2 rs2 h2 with ⟨hsub2, hpres2⟩
        constructor
        · exact fun u hu => hsub2 u (hsub1 u hu)
        · intro t ht
          rw [List.flatten_cons] at ht
          rcases List.mem_append.mp ht with hm | hm
          · exact hashPresent_mono hsub2 (hpres1 t hm)
          · exact hpres2 t hm

theorem pgRunBatches_rerun (c : Bool) (src : SourceDB) :
    ∀ (bs : List (List TorrentRow)) (db : TargetDB),
      (∀ t ∈ bs.flatten, hashPresent db t.info_hash = true) →
      ∃ rs, pgRunBatches c src db bs = .ok (db, rs) ∧
        List.Forall₂ (fun (r : MergeResult) (b : List TorrentRow) =>
          r.inserted = 0 ∧ r.failed = b.length ∧ r.processed = b.length) rs bs := by
  intro bs
  induction bs with
  | nil => intro db _; exact ⟨[], rfl, List.Forall₂.nil⟩
  | cons b rest ih =>
    intro db hp
    have hb : ∀ t ∈ b, hashPresent db t.info_hash = true := by
      intro t ht
      exact hp t (by rw [List.flatten_cons]; exact List.mem_append_left _ ht)
    rcases pgMergeTorrents_rerun c src hb with ⟨r, hr, hri, hrf, hrp⟩
    rcases ih db (fun t ht => hp t
      (by rw [List.flatten_cons]; exact List.mem_append_right _ ht)) with ⟨rs, hrs, hfa⟩
    refine ⟨r :: rs, ?_, List.Forall₂.cons ⟨hri, hrf, hrp⟩ hfa⟩
    rw [pgRunBatches]
    simp only [hr, hrs]

/-! ### Aggregate count lemmas -/

theorem sumBy_cons (g : MergeResult → Nat) (r : MergeResult) (rs : List MergeResult) :
    sumBy g (r :: rs) = g r + sumBy g rs := by
  simp [sumBy]

theorem sumBy_add_of_pointwise :
    ∀ (rs : List MergeResult),
      (∀ r ∈ rs, r.inserted + r.failed = r.processed) →
      sumBy (fun r => r.inserted) rs + sumBy (fun r => r.failed) rs =
        sumBy (fun r => r.processed) rs := by
  intro rs
  induction rs with
  | nil => intro _; rfl
  | cons r rest ih =>
    intro h
    rw [sumBy_cons, sumBy_cons, sumBy_cons]
    have h1 := h r (List.mem_cons_self r rest)
    have h2 := ih (fun u hu => h u (List.mem_cons_of_mem r hu))
    omega

theorem sqliteRunBatches_processed_sum (src : SourceDB) (ms : Bool) :
    ∀ (bs : List (List TorrentRow)) (st : SqliteState),
      sumBy (fun r => r.processed) (sqliteRunBatches src ms st bs).2 =
        (bs.map List.length).sum := by
  intro bs
  induction bs with
  | nil => intro st; rfl
  | cons b rest ih =>
    intro st
    simp only [sqliteRunBatches, List.map_cons, List.sum_cons]
    rw [sumBy_cons, ih]
    simp only [sqliteMergeTorrents]
    rw [sqliteMergeCounts_processed]

theorem pgRunBatches_processed_sum (c : Bool) (src : SourceDB) :
    ∀ (bs : List (List TorrentRow)) (db db' : TargetDB) (rs : List MergeResult),
      pgRunBatches c src db bs = .ok (db', rs) →
      sumBy (fun r => r.processed) rs = (bs.map List.length).sum := by
  intro bs
  induction bs with
  | nil =>
    intro db db' rs h
    simp only [pgRunBatches, Except.ok.injEq, Prod.mk.injEq] at h
    rcases h with ⟨_, h2⟩
    subst h2
    rfl
  | cons b rest ih =>
    intro db db' rs h
    rw [pgRunBatches] at h
    rcases h1 : pgMergeTorrents c src 2 db b with e | ⟨db1, r1⟩
    · simp only [h1] at h
      exact Except.noConfusion h
    · simp only [h1] at h
      rcases h2 : pgRunBatches c src db1 rest with e | ⟨db2, rs2⟩
      · simp only [h2] at h
        exact Except.noConfusion h
      · simp only [h2, Except.ok.injEq, Prod.mk.injEq] at h
        rcases h with ⟨_, hrs⟩
        subst hrs
        rw [List.map_cons, List.sum_cons, sumBy_cons, ih db1 db2 rs2 h2,
          (pgMergeTorrents_ok_counts c src 2 db b db1 r1 h1).1]

/-! ### Conflict-free batches get a correct id map -/

theorem pgInsertAll_fresh :
    ∀ (ts : List TorrentRow) (db : TargetDB),
      (∀ t ∈ ts, hashPresent db t.info_hash = false) →
      ts.Pairwise (fun a b => a.info_hash ≠ b.info_hash) →
      (pgInsertAll db ts).2 = List.range' db.nextTorrentId ts.length ∧
      ∀ q ∈ (List.range' db.nextTorrentId ts.length).zip ts,
        { q.2 with id := q.1 } ∈ (pgInsertAll db ts).1.torrents := by
  intro ts
  induction ts with
  | nil => intro db _ _; exact ⟨rfl, by simp⟩
  | cons t rest ih =>
    intro db habs hpw
    have h0 : hashPresent db t.info_hash = false := habs t (List.mem_cons_self t rest)
    have hpwrest := (List.pairwise_cons.mp hpw).2
    have hne := (List.pairwise_cons.mp hpw).1
    rw [pgInsertAll, insertTorrentOrSkip_absent_eq h0]
    set db1 : TargetDB := { db with
      torrents := db.torrents ++ [{ t with id := db.nextTorrentId }],
      nextTorrentId := db.nextTorrentId + 1 } with hdb1
    have habs1 : ∀ u ∈ rest, hashPresent db1 u.info_hash = false := by
      intro u hu
      have hu0 := habs u (List.mem_cons_of_mem t hu)
      simp only [hashPresent] at hu0
      simp only [hdb1, hashPresent, List.any_append, List.any_cons, List.any_nil,
        Bool.or_false, Bool.or_eq_false_iff]
      exact ⟨hu0, by simp [hne u hu]⟩
    rcases ih db1 habs1 hpwrest with ⟨hids, hmem⟩
    constructor
    · show db.nextTorrentId :: (pgInsertAll db1 rest).2 =
        List.range' db.nextTorrentId (rest.length + 1)
      rw [hids]
      rfl
    · intro q hq
      have hrange : List.range' db.nextTorrentId (rest.length + 1) =
          db.nextTorrentId :: List.range' (db.nextTorrentId + 1) rest.length := rfl
      rw [List.length_cons, hrange, List.zip_cons_cons] at hq
      rcases List.mem_cons.mp hq with hq | hq
      · subst hq
        show ({ t with id := db.nextTorrentId } : TorrentRow) ∈
          (pgInsertAll db1 rest).1.torrents
        refine pgInsertAll_sub rest db1 _ ?_
        rw [hdb1]
        exact List.mem_append_right _ (List.mem_singleton_self _)
      · show ({ q.2 with id := q.1 } : TorrentRow) ∈ (pgInsertAll db1 rest).1.torrents
        exact hmem q hq

/-! ### Benign file rows make the file-merge phase succeed -/

theorem chunkListFuel_sub {α : Type} (n : Nat) :
    ∀ (fuel : Nat) (l : List α) (p : List α),
      p ∈ chunkListFuel n fuel l → ∀ x ∈ p, x ∈ l := by
  intro fuel
  induction fuel with
  | zero => intro l p hp; simp [chunkListFuel] at hp
  | succ fuel ih =>
    intro l p hp x hx
    rcases l with _ | ⟨a, l⟩
    · simp [chunkListFuel] at hp
    · rw [chunkListFuel] at hp
      split at hp
      · simp at hp
      · rcases List.mem_cons.mp hp with h | h
        · subst h
          exact List.take_subset n (a :: l) hx
        · exact List.drop_subset n (a :: l) (ih ((a :: l).drop n) p h x hx)

theorem chunkList_sub {α : Type} (n : Nat) :
    ∀ (l : List α) (p : List α), p ∈ chunkList n l → ∀ x ∈ p, x ∈ l := by
  intro l p hp
  exact chunkListFuel_sub n l.length l p hp

theorem pgRewriteRows_benign (m : List (Nat × Nat)) (fixNul : Bool)
    (rows : List FileRow)
    (h : ∀ f ∈ rows, fileTextHasNul f = false ∧ f.is_readme = none) :
    ∀ f ∈ pgRewriteRows m fixNul rows, fileTextHasNul f = false ∧ f.is_readme = none := by
  intro f hf
  rcases List.mem_map.mp (by simpa [pgRewriteRows] using hf) with ⟨u, hu, rfl⟩
  rcases h u hu with ⟨h1, h2⟩
  rcases Bool.or_eq_false_iff.mp (by simpa [fileTextHasNul] using h1) with ⟨h3, h4⟩
  by_cases hfix : fixNul
  · subst hfix
    refine ⟨?_, by simpa [pgRewriteRows] using h2⟩
    simp only [fileTextHasNul, pgRewriteRows, if_pos rfl, Bool.or_eq_false_iff]
    exact ⟨stripNul_hasNul u.path, h4⟩
  · rcases Bool.eq_false_iff.mpr hfix with hfix'
    subst hfix'
    refine ⟨?_, by simpa [pgRewriteRows] using h2⟩
    simp only [fileTextHasNul, Bool.or_eq_false_iff]
    exact ⟨h3, h4⟩

theorem readmeConflict_none {db : TargetDB} {f : FileRow} (h : f.is_readme = none) :
    readmeConflict db f = false := by
  simp [readmeConflict, h]

theorem pgCopyRows_benign :
    ∀ (rows : List FileRow) (db : TargetDB),
      (∀ f ∈ rows, fileTextHasNul f = false ∧ f.is_readme = none) →
      ∃ db', pgCopyRows db rows = .ok db' := by
  intro rows
  induction rows with
  | nil => intro db _; exact ⟨db, rfl⟩
  | cons f rest ih =>
    intro db h
    rcases h f (List.mem_cons_self f rest) with ⟨h1, h2⟩
    rcases ih (insertFileRow db f.torrent_id f)
      (fun u hu => h u (List.mem_cons_of_mem f hu)) with ⟨db', hdb'⟩
    refine ⟨db', ?_⟩
    rw [pgCopyRows, h1]
    simp only [Bool.false_eq_true, if_false]
    rw [readmeConflict_none h2]
    simpa using hdb'

theorem pgMergeFiles_benign (c : Bool) (src : SourceDB) (db : TargetDB)
    (m : List (Nat × Nat))
    (h : ∀ f ∈ src.files, fileTextHasNul f = false ∧ f.is_readme = none) :
    ∃ db', pgMergeFiles c src db m = .ok db' := by
  have hrows : ∀ f ∈ sourceFilesForIds src (m.map Prod.fst),
      fileTextHasNul f = false ∧ f.is_readme = none := by
    intro f hf
    rw [sourceFilesForIds] at hf
    exact h f (List.mem_of_mem_filter hf)
  rw [pgMergeFiles]
  by_cases hc : c
  · rw [if_pos hc, pgMergeFilesCopy]
    rcases pgCopyRows_benign _ db (pgRewriteRows_benign m false _ hrows) with ⟨db', hdb'⟩
    rw [hdb']
    exact ⟨db', rfl⟩
  · rw [if_neg hc, pgMergeFilesFallback]
    generalize hpages : chunkList 1000 (sourceFilesForIds src (m.map Prod.fst)) = pages
    have hsub : ∀ p ∈ pages, ∀ f ∈ p, fileTextHasNul f = false ∧ f.is_readme = none := by
      intro p hp f hf
      exact hrows f (chunkList_sub 1000 _ p (hpages ▸ hp) f hf)
    clear hpages
    induction pages generalizing db with
    | nil => exact ⟨db, rfl⟩
    | cons p rest ih =>
      have hpage : ∀ f ∈ pgRewriteRows m false p, fileTextHasNul f = false :=
        fun f hf => (pgRewriteRows_benign m false p
          (fun u hu => hsub p (List.mem_cons_self p rest) u hu) f hf).1
    -- the page has no NUL text, so the fallback inserts it directly
      have hany : (pgRewriteRows m false p).any fileTextHasNul = false := by
        rw [List.any_eq_false]
        intro f hf
        simp [hpage f hf]
      rcases ih (pgInsertFilesPage db (pgRewriteRows m false p))
        (fun q hq f hf => hsub q (List.mem_cons_of_mem p hq) f hf) with ⟨db', hdb'⟩
      refine ⟨db', ?_⟩
      rw [foldPages, pgFallbackPage, hany]
      simpa using hdb'

/-! ### Retry mechanics of the NUL sanitization -/

theorem pgMergeTorrents_nul_step (c : Bool) (src : SourceDB) (fuel : Nat)
    {db : TargetDB} {ts : List TorrentRow}
    (hn : (ts.any (fun t => hasNul t.name)) = true) :
    pgMergeTorrents c src (fuel + 1) db ts =
      pgMergeTorrents c src fuel db (fixBytesName ts) := by
  rw [pgMergeTorrents, pgMergeTorrentsGen, pgExecuteValuesTorrents, if_pos hn]
  rfl

theorem pgMergeTorrentsGen_ok_step
    (exec : TargetDB → List TorrentRow → Except MergeError (TargetDB × List Nat))
    (c : Bool) (src : SourceDB) (fuel : Nat) (db : TargetDB) (ts : List TorrentRow)
    (db1 : TargetDB) (ids : List Nat) (hexec : exec db ts = .ok (db1, ids)) :
    pgMergeTorrentsGen exec c src (fuel + 1) db ts =
      (match pgMergeFiles c src db1 (buildIdMap ids ts) with
       | .error e => .error e
       | .ok db2 =>
         .ok (db2,
           { failed := ts.length - ids.length, inserted := ids.length,
             processed := ts.length, last := ts.getLast? })) := by
  rw [pgMergeTorrentsGen, hexec]

theorem pgMergeTorrents_noNul_fuel (c : Bool) (src : SourceDB) (fuel : Nat)
    {db : TargetDB} {ts : List TorrentRow}
    (hn : (ts.any (fun t => hasNul t.name)) = false) :
    pgMergeTorrents c src (fuel + 1) db ts = pgMergeTorrents c src 1 db ts := by
  rcases hall : pgInsertAll db ts with ⟨db1, ids⟩
  have hexec : pgExecuteValuesTorrents db ts = .ok (db1, ids) := by
    rw [pgExecuteValuesTorrents, if_neg (by simp [hn]), hall]
  rw [pgMergeTorrents, pgMergeTorrentsGen_ok_step _ c src fuel db ts db1 ids hexec,
    pgMergeTorrents]
  show _ = pgMergeTorrentsGen pgExecuteValuesTorrents c src (0 + 1) db ts
  rw [pgMergeTorrentsGen_ok_step _ c src 0 db ts db1 ids hexec]

theorem pgMergeTorrents_fuel1_nul (c : Bool) (src : SourceDB)
    {db : TargetDB} {ts : List TorrentRow}
    (hn : (ts.any (fun t => hasNul t.name)) = true) :
    pgMergeTorrents c src 1 db ts = .error .recursionLimit := by
  show pgMergeTorrents c src (0 + 1) db ts = .error .recursionLimit
  rw [pgMergeTorrents_nul_step c src 0 hn, pgMergeTorrents, pgMergeTorrentsGen]

theorem pgMergeTorrentsGen_error
    (exec : TargetDB → List TorrentRow → Except MergeError (TargetDB × List Nat))
    (c : Bool) (src : SourceDB) (fuel : Nat) (db : TargetDB) (ts : List TorrentRow)
    (e : MergeError) (hexec : exec db ts = .error e) (hne : e ≠ .valueErrorNul) :
    ∃ e', pgMergeTorrentsGen exec c src (fuel + 1) db ts = .error e' := by
  rw [pgMergeTorrentsGen, hexec]
  cases e
  all_goals first
  | exact absurd rfl hne
  | exact ⟨_, rfl⟩

theorem pgMergeTorrents_noNul_ok (c : Bool) (src : SourceDB) (fuel : Nat)
    (db : TargetDB) (ts : List TorrentRow)
    (hn : (ts.any (fun t => hasNul t.name)) = false)
    (hbenign : ∀ f ∈ src.files, fileTextHasNul f = false ∧ f.is_readme = none) :
    ∃ db' r, pgMergeTorrents c src (fuel + 1) db ts = .ok (db', r) := by
  rcases hall : pgInsertAll db ts with ⟨db1, ids⟩
  have hexec : pgExecuteValuesTorrents db ts = .ok (db1, ids) := by
    rw [pgExecuteValuesTorrents, if_neg (by simp [hn]), hall]
  rcases pgMergeFiles_benign c src db1 (buildIdMap ids ts) hbenign with ⟨db2, hdb2⟩
  refine ⟨db2, MergeResult.mk (ts.length - ids.length) ids.length ts.length
    ts.getLast?, ?_⟩
  rw [pgMergeTorrents, pgMergeTorrentsGen_ok_step _ c src fuel db ts db1 ids hexec, hdb2]

/-! ### Fast-mode catalog lemmas -/

theorem mem_capturedConstraints {cat : PgCatalog} {c : PgConstraint} :
    c ∈ capturedConstraints cat ↔
      c ∈ cat.constraints ∧
        (onCoreTables c.relname && ¬ c.conname = hashKeyName) = true := by
  simp [capturedConstraints, List.mem_filter]

theorem capturedMatch_iff {cat : PgCatalog}
    (hkc : (cat.constraints.map (fun c => (c.relname, c.conname))).Nodup)
    {c : PgConstraint} (hc : c ∈ cat.constraints) :
    ((capturedConstraints cat).any
        (fun d => d.relname = c.relname && d.conname = c.conname)) = true ↔
      (onCoreTables c.relname && ¬ c.conname = hashKeyName) = true := by
  constructor
  · intro h
    rcases List.any_eq_true.mp h with ⟨d, hd, hmatch⟩
    simp only [Bool.and_eq_true, decide_eq_true_eq] at hmatch
    rcases mem_capturedConstraints.mp hd with ⟨hdmem, hdcp⟩
    have hdc : d = c := by
      refine List.inj_on_of_nodup_map hkc hdmem hc ?_
      simp [hmatch.1, hmatch.2]
    rw [← hdc]
    exact hdcp
  · intro h
    refine List.any_eq_true.mpr ⟨c, mem_capturedConstraints.mpr ⟨hc, h⟩, by simp⟩

theorem dropConstraints_captured_mem (cat : PgCatalog)
    (hkc : (cat.constraints.map (fun c => (c.relname, c.conname))).Nodup)
    (c : PgConstraint) :
    c ∈ (dropConstraints cat (capturedConstraints cat)).constraints ↔
      c ∈ cat.constraints ∧
        ¬ ((onCoreTables c.relname && ¬ c.conname = hashKeyName) = true) := by
  constructor
  · intro h
    have h1 := List.mem_of_mem_filter h
    have h2 := List.of_mem_filter h
    refine ⟨h1, ?_⟩
    simp only [decide_eq_true_eq] at h2
    intro hcp
    exact h2 ((capturedMatch_iff hkc h1).mpr hcp)
  · rintro ⟨h1, h2⟩
    refine List.mem_filter.mpr ⟨h1, ?_⟩
    simp only [decide_eq_true_eq]
    intro hany
    exact h2 ((capturedMatch_iff hkc h1).mp hany)

theorem visibleIndices_dropped (cat : PgCatalog)
    (hkc : (cat.constraints.map (fun c => (c.relname, c.conname))).Nodup) :
    visibleIndices (dropConstraints cat (capturedConstraints cat)) =
      cat.plainIndices.filter
        (fun i => onCoreTables i.tablename && ¬ i.indexname = hashKeyName) := by
  rw [visibleIndices, allIndices]
  have hplain : (dropConstraints cat (capturedConstraints cat)).plainIndices =
      cat.plainIndices := rfl
  rw [hplain, List.filter_append]
  have hnil : (((dropConstraints cat (capturedConstraints cat)).constraints.filter
      (fun c => c.backed)).map backingIndex).filter
      (fun i => onCoreTables i.tablename && ¬ i.indexname = hashKeyName) = [] := by
    rw [List.filter_eq_nil_iff]
    intro i hi
    rcases List.mem_map.mp hi with ⟨d, hd, rfl⟩
    have hdmem := List.mem_of_mem_filter hd
    rcases (dropConstraints_captured_mem cat hkc d).mp hdmem with ⟨_, hncp⟩
    simpa [backingIndex] using hncp
  rw [hnil, List.append_nil]

theorem plainNames_nodup (cat : PgCatalog)
    (hki : ((allIndices cat).map (fun i => i.indexname)).Nodup) :
    (cat.plainIndices.map (fun i => i.indexname)).Nodup := by
  rw [allIndices, List.map_append] at hki
  exact (List.nodup_append.mp hki).1

theorem dropIndices_contains_iff (cat : PgCatalog)
    (hki : ((allIndices cat).map (fun i => i.indexname)).Nodup)
    {i : PgIndex} (hi : i ∈ cat.plainIndices) :
    ((cat.plainIndices.filter
        (fun j => onCoreTables j.tablename && ¬ j.indexname = hashKeyName)).map
        (fun j => j.indexname)).contains i.indexname = true ↔
      (onCoreTables i.tablename && ¬ i.indexname = hashKeyName) = true := by
  have hnd := plainNames_nodup cat hki
  constructor
  · intro h
    have h' : ∃ a, (a ∈ cat.plainIndices ∧ onCoreTables a.tablename = true ∧
        ¬ a.indexname = hashKeyName) ∧ a.indexname = i.indexname := by
      simpa using h
    rcases h' with ⟨j, ⟨hj1, hj2, hj3⟩, hname⟩
    have hji : j = i := List.inj_on_of_nodup_map hnd hj1 hi hname
    rw [← hji]
    simp [hj2, hj3]
  · intro h
    have hmem : i.indexname ∈ (cat.plainIndices.filter
        (fun j => onCoreTables j.tablename && ¬ j.indexname = hashKeyName)).map
        (fun j => j.indexname) :=
      List.mem_map_of_mem _ (List.mem_filter.mpr ⟨hi, h⟩)
    simpa using hmem

/-- Constraint set restored by after-import (fast mode round trip). -/
theorem fastMode_constraints_restore (cat : PgCatalog)
    (hkc : (cat.constraints.map (fun c => (c.relname, c.conname))).Nodup) :
    ∀ c, c ∈ ((fastModeDuring cat).constraints ++ capturedConstraints cat) ↔
      c ∈ cat.constraints := by
  intro c
  have hdc : (fastModeDuring cat).constraints =
      (dropConstraints cat (capturedConstraints cat)).constraints := rfl
  constructor
  · intro hmem
    rcases List.mem_append.mp hmem with hm | hm
    · rw [hdc] at hm
      exact List.mem_of_mem_filter hm
    · exact List.mem_of_mem_filter hm
  · intro hmem
    by_cases hcp : (onCoreTables c.relname && ¬ c.conname = hashKeyName) = true
    · exact List.mem_append_right _ (mem_capturedConstraints.mpr ⟨hmem, hcp⟩)
    · refine List.mem_append_left _ ?_
      rw [hdc]
      exact (dropConstraints_captured_mem cat hkc c).mpr ⟨hmem, hcp⟩

/-- Plain-index set restored by after-import (fast mode round trip). -/
theorem fastMode_plain_restore (cat : PgCatalog)
    (hkc : (cat.constraints.map (fun c => (c.relname, c.conname))).Nodup)
    (hki : ((allIndices cat).map (fun i => i.indexname)).Nodup) :
    ∀ i, i ∈ ((fastModeDuring cat).plainIndices ++
        visibleIndices (dropConstraints cat (capturedConstraints cat))) ↔
      i ∈ cat.plainIndices := by
  intro i
  have hvis := visibleIndices_dropped cat hkc
  have hdp : (fastModeDuring cat).plainIndices =
      cat.plainIndices.filter (fun j =>
        ¬ ((visibleIndices (dropConstraints cat (capturedConstraints cat))).map
            (fun k => k.indexname)).contains j.indexname) := rfl
  constructor
  · intro hmem
    rcases List.mem_append.mp hmem with hm | hm
    · rw [hdp] at hm
      exact List.mem_of_mem_filter hm
    · rw [hvis] at hm
      exact List.mem_of_mem_filter hm
  · intro hmem
    by_cases hip : (onCoreTables i.tablename && ¬ i.indexname = hashKeyName) = true
    · refine List.mem_append_right _ ?_
      rw [hvis]
      exact List.mem_filter.mpr ⟨hmem, hip⟩
    · refine List.mem_append_left _ ?_
      rw [hdp]
      refine List.mem_filter.mpr ⟨hmem, ?_⟩
      rw [hvis]
      simp only [decide_eq_true_eq]
      intro hcontains
      exact hip ((dropIndices_contains_iff cat hki hmem).mp hcontains)

/-- Full index set (plain plus constraint-backing) restored by after-import. -/
theorem fastMode_indices_restore (cat : PgCatalog)
    (hkc : (cat.constraints.map (fun c => (c.relname, c.conname))).Nodup)
    (hki : ((allIndices cat).map (fun i => i.indexname)).Nodup) :
    ∀ i, i ∈ allIndices (afterImportFast (fastModeDuring cat) (capturedConstraints cat)
        (visibleIndices (dropConstraints cat (capturedConstraints cat)))) ↔
      i ∈ allIndices cat := by
  intro i
  have hplain := fastMode_plain_restore cat hkc hki i
  have hconstr := fastMode_constraints_restore cat hkc
  constructor
  · intro hmem
    rcases List.mem_append.mp hmem with hp | hb
    · exact List.mem_append_left _ (hplain.mp hp)
    · rcases List.mem_map.mp hb with ⟨d, hd, rfl⟩
      have hd1 := List.mem_of_mem_filter hd
      have hd2 := List.of_mem_filter hd
      have hdc : d ∈ cat.constraints := (hconstr d).mp hd1
      exact List.mem_append_right _
        (List.mem_map_of_mem _ (List.mem_filter.mpr ⟨hdc, hd2⟩))
  · intro hmem
    rcases List.mem_append.mp hmem with hp | hb
    · exact List.mem_append_left _ (hplain.mpr hp)
    · rcases List.mem_map.mp hb with ⟨d, hd, rfl⟩
      have hd1 := List.mem_of_mem_filter hd
      have hd2 := List.of_mem_filter hd
      refine List.mem_append_right _
        (List.mem_map_of_mem _ (List.mem_filter.mpr ⟨?_, hd2⟩))
      exact (hconstr d).mpr hd1

/-! ### Strict and replacing UTF-8 decoding agree -/

theorem utf8_fuel_agree : ∀ (fuel : Nat) (bs : List Nat),
    (∀ cs, utf8DecodeStrictFuel fuel bs = some cs → utf8DecodeReplaceFuel fuel bs = cs) ∧
    (utf8DecodeStrictFuel fuel bs = none → repChar ∈ utf8DecodeReplaceFuel fuel bs) := by
  intro fuel
  induction fuel with
  | zero =>
    intro bs
    constructor
    · intro cs h
      cases bs with
      | nil =>
        simp only [utf8DecodeStrictFuel, Option.some.injEq] at h
        subst h
        rfl
      | cons b rest =>
        simp only [utf8DecodeStrictFuel, Option.some.injEq] at h
        subst h
        rfl
    · intro h
      cases bs <;> simp [utf8DecodeStrictFuel] at h
  | succ fuel ih =>
    intro bs
    rcases bs with _ | ⟨b, rest⟩
    · constructor
      · intro cs h
        simp only [utf8DecodeStrictFuel, Option.some.injEq] at h
        subst h
        rfl
      · intro h
        simp [utf8DecodeStrictFuel] at h
    · rcases hp : utf8Parse1 b rest with ⟨oc, k⟩
      have ih2 := ih (rest.drop k)
      cases oc with
      | some ch =>
        constructor
        · intro cs h
          simp only [utf8DecodeStrictFuel, hp] at h
          rcases hrec : utf8DecodeStrictFuel fuel (rest.drop k) with _ | cs'
          · rw [hrec] at h
            exact Option.noConfusion h
          · rw [hrec] at h
            simp only [Option.map_some', Option.some.injEq] at h
            subst h
            simp only [utf8DecodeReplaceFuel, hp]
            rw [ih2.1 cs' hrec]
        · intro h
          simp only [utf8DecodeStrictFuel, hp] at h
          rcases hrec : utf8DecodeStrictFuel fuel (rest.drop k) with _ | cs'
          · simp only [utf8DecodeReplaceFuel, hp]
            exact List.mem_cons_of_mem _ (ih2.2 hrec)
          · rw [hrec] at h
            exact Option.noConfusion h
      | none =>
        constructor
        · intro cs h
          simp only [utf8DecodeStrictFuel, hp] at h
          exact Option.noConfusion h
        · intro _
          simp only [utf8DecodeReplaceFuel, hp]
          exact List.mem_cons_self _ _

theorem utf8_strict_replace_agree (bs : List Nat) (cs : List Char)
    (h : utf8DecodeStrict bs = some cs) : utf8DecodeReplace bs = cs :=
  (utf8_fuel_agree bs.length bs).1 cs h

theorem utf8_strict_fails_replaced (bs : List Nat)
    (h : utf8DecodeStrict bs = none) : repChar ∈ utf8DecodeReplace bs :=
  (utf8_fuel_agree bs.length bs).2 h

/-! ### Outcome characterization of the main loop -/

theorem pgMergeTorrents_nil (c : Bool) (src : SourceDB) (fuel : Nat) (db : TargetDB) :
    pgMergeTorrents c src (fuel + 1) db [] =
      .ok (db, { failed := 0, inserted := 0, processed := 0, last := none }) := by
  have hexec : pgExecuteValuesTorrents db [] = .ok (db, []) := rfl
  rw [pgMergeTorrents, pgMergeTorrentsGen_ok_step _ c src fuel db [] db [] hexec]
  have hmap : buildIdMap [] ([] : List TorrentRow) = [] := rfl
  rw [hmap, pgMergeFiles_nil]
  simp

theorem mainRunPg_stripped_eq (c : Bool) (src : SourceDB) (db0 : TargetDB) :
    mainRunPg true c src db0 = rollbackOutcome db0 := by
  rw [mainRunPg]
  rcases h1 : pgRunBatches c src db0 (chunkList 1000 (strippedSelection true src))
      with e | ⟨db1, rs⟩
  · simp [h1]
  · simp only [h1]
    have h2 : pgMergeTorrents c src 2 db1 [] =
        .ok (db1, { failed := 0, inserted := 0, processed := 0, last := none }) :=
      pgMergeTorrents_nil c src 1 db1
    simp only [h2]
    simp

theorem mainRunPg_outcomes (stripped c : Bool) (src : SourceDB) (db0 : TargetDB) :
    (mainRunPg stripped c src db0 = rollbackOutcome db0) ∨
    ((mainRunPg stripped c src db0).rolledBack = false ∧
     (mainRunPg stripped c src db0).commits = 1 ∧
     (mainRunPg stripped c src db0).errorSurfaced = false ∧
     (mainRunPg stripped c src db0).exitCode = 0) := by
  cases stripped with
  | true => exact Or.inl (mainRunPg_stripped_eq c src db0)
  | false =>
    rw [mainRunPg]
    rcases h1 : pgRunBatches c src db0 (chunkList 1000 (strippedSelection false src))
        with e | ⟨db1, rs⟩
    · exact Or.inl (by simp [h1])
    · simp only [h1]
      have h2 : pgMergeTorrents c src 2 db1 [] =
          .ok (db1, { failed := 0, inserted := 0, processed := 0, last := none }) :=
        pgMergeTorrents_nil c src 1 db1
      simp only [h2]
      simp

theorem mainRunPg_commit_run (c : Bool) (src : SourceDB) (db0 db1 : TargetDB)
    (rs : List MergeResult)
    (h1 : pgRunBatches c src db0 (chunkList 1000 (strippedSelection false src)) =
      .ok (db1, rs)) :
    mainRunPg false c src db0 =
      { committedDb := db1, commits := 1, rolledBack := false,
        errorSurfaced := false, exitCode := 0, reportedLastId := none } := by
  rw [mainRunPg]
  simp only [h1]
  have h2 : pgMergeTorrents c src 2 db1 [] =
      .ok (db1, { failed := 0, inserted := 0, processed := 0, last := none }) :=
    pgMergeTorrents_nil c src 1 db1
  simp only [h2]
  simp

/-! ### Concrete fixtures for the claim instances -/

/-- A minimal source torrent row (source id 1, hash `[1]`). -/
def sampleTorrent : TorrentRow :=
  { id := 1, info_hash := [1], name := [], total_size := 1, discovered_on := 1,
    updated_on := none, n_seeders := none, n_leechers := none, modified_on := 1 }

/-- A second source torrent (source id 2, hash `[2]`). -/
def torrentB : TorrentRow := { sampleTorrent with id := 2, info_hash := [2] }

/-- A duplicate of `sampleTorrent` under a different source id. -/
def torrentDupB : TorrentRow := { sampleTorrent with id := 2, info_hash := [1] }

/-- A torrent whose name carries an embedded NUL character. -/
def torrentNulName : TorrentRow :=
  { sampleTorrent with
      id := 3
      info_hash := [3]
      name := [Char.ofNat 0, Char.ofNat 110] }

/-- A file row of `sampleTorrent` (path `"a"`). -/
def fileA : FileRow :=
  { id := 1, torrent_id := 1, size := 1, path := [Char.ofNat 97],
    is_readme := none, content := none }

/-- A file row of torrent 2 (path `"b"`). -/
def fileB : FileRow := { fileA with id := 2, torrent_id := 2, path := [Char.ofNat 98] }

/-- A source holding two distinct torrents with one file each. -/
def srcAB : SourceDB := { torrents := [sampleTorrent, torrentB], files := [fileA, fileB] }

/-- A source whose second torrent duplicates the first torrent's hash. -/
def srcDup : SourceDB :=
  { torrents := [sampleTorrent, torrentDupB], files := [fileA, fileB] }

/-- `srcAB` plus a torrent (source id 9) that has no file rows. -/
def srcWithEmptyTorrent : SourceDB :=
  { torrents := [sampleTorrent, torrentB,
      { sampleTorrent with id := 9, info_hash := [9] }],
    files := [fileA, fileB] }

/-- An empty target database. -/
def emptyTarget : TargetDB :=
  { torrents := [], files := [], nextTorrentId := 1, nextFileId := 1 }

/-- A target that already holds `sampleTorrent`'s hash (under target id 5). -/
def targetWithH1 : TargetDB :=
  { torrents := [{ sampleTorrent with id := 5 }], files := [],
    nextTorrentId := 6, nextFileId := 1 }

/-- The target produced by the PostgreSQL merge of `[sampleTorrent, torrentB]`
into `targetWithH1`: torrentB accepted under id 6, but the only file row is
the rejected torrent's, attached to id 6. -/
def pgMisalignedAfter : TargetDB :=
  { torrents := [{ sampleTorrent with id := 5 }, { torrentB with id := 6 }],
    files := [{ fileA with id := 1, torrent_id := 6 }],
    nextTorrentId := 7, nextFileId := 2 }

/-- The target produced by a clean first PostgreSQL run of `srcAB` into the
empty target. -/
def pgFirstRunAfter : TargetDB :=
  { torrents := [{ sampleTorrent with id := 1 }, { torrentB with id := 2 }],
    files := [{ fileA with id := 1, torrent_id := 1 },
      { fileB with id := 2, torrent_id := 2 }],
    nextTorrentId := 3, nextFileId := 3 }

/-- The SQLite connection state after merging `[sampleTorrent, torrentDupB]`
into the empty target in shared-storage mode. -/
def sqliteDupAfter : SqliteState :=
  { db := { torrents := [{ sampleTorrent with id := 1 }]
            files := [{ fileA with id := 1, torrent_id := 1 },
                      { fileB with id := 2, torrent_id := 1 }]
            nextTorrentId := 2
            nextFileId := 3 }
    lastInsertRowid := 2 }

/-- A target catalog matching the schema: two primary keys, the content-hash
uniqueness constraint, one foreign key and one plain index. -/
def sampleCatalog : PgCatalog :=
  { constraints := [⟨"torrents_pkey", "torrents", true⟩,
      ⟨"torrents_info_hash_key", "torrents", true⟩,
      ⟨"files_pkey", "files", true⟩,
      ⟨"files_torrent_id_fkey", "files", false⟩],
    plainIndices := [⟨"modified_on_index", "torrents"⟩] }

/-- `sampleCatalog` during the fast-mode import: only the content-hash
constraint survives and no plain index remains. -/
def sampleCatalogDuring : PgCatalog :=
  { constraints := [⟨"torrents_info_hash_key", "torrents", true⟩],
    plainIndices := [] }

/-- The constraints `before_import` captures on `sampleCatalog`. -/
def sampleCaptured : List PgConstraint :=
  [⟨"torrents_pkey", "torrents", true⟩, ⟨"files_pkey", "files", true⟩,
    ⟨"files_torrent_id_fkey", "files", false⟩]

/-- The indices `before_import` captures on `sampleCatalog`. -/
def sampleIdx : List PgIndex := [⟨"modified_on_index", "torrents"⟩]

/-! ### Remaining helper lemmas -/

theorem zip_map_snd_proj {α β γ : Type} (g : β → γ) :
    ∀ (l1 : List α) (l2 : List β), l1.length = l2.length →
      (l1.zip l2).map (fun p => g p.2) = l2.map g := by
  intro l1
  induction l1 with
  | nil =>
    intro l2 h
    cases l2 with
    | nil => rfl
    | cons b l2 => simp at h
  | cons a l ih =>
    intro l2 h
    cases l2 with
    | nil => simp at h
    | cons b l2 =>
      simp only [List.zip_cons_cons, List.map_cons]
      rw [ih l2 (by simpa using h)]

/-! ### Claim theorems -/

/-- C1 (code bug): the spec claims every accepted torrent's full set of
source file rows appears exactly once in the target with the foreign key
rewritten to that torrent's newly assigned id, on all backend pairings.  On
the PostgreSQL paths this fails: `RETURNING id` produces no row for a
rejected conflict, yet the id map zips the returned ids positionally with
the whole batch.  With the target already holding hash `[1]`, merging
`[sampleTorrent (hash [1]), torrentB (hash [2])]` accepts `torrentB` under
id 6, but the merged target contains none of torrentB's file rows — the
rejected torrent's file row is attached to id 6 instead. -/
theorem c1_pg_accepted_torrent_files_lost :
    pgMergeTorrents true srcAB 2 targetWithH1 [sampleTorrent, torrentB] =
      .ok (pgMisalignedAfter,
        { failed := 1, inserted := 1, processed := 2, last := some torrentB }) ∧
    hashPresent targetWithH1 torrentB.info_hash = false ∧
    ({ torrentB with id := 6 } ∈ pgMisalignedAfter.torrents) ∧
    (pgMisalignedAfter.files.any (fun f => f.path = fileB.path)) = false ∧
    pgMisalignedAfter.files = [{ fileA with id := 1, torrent_id := 6 }] := by
  decide

/-- C2 (counterexample): the claim says the multi-row insert-or-skip
statement returns a null marker per rejected row and that the old-to-new id
map contains exactly the accepted torrents.  In fact the statement returns
one id per row actually inserted and nothing for rejected rows, and zipping
truncates: with hash `[1]` already in the target, the fetched result of the
batch `[sampleTorrent, torrentB]` is the single id 6 (no marker row for the
rejected first row), and the map built from it is keyed by the rejected
torrent's source id 1 rather than the accepted torrent's source id 2. -/
theorem c2_returning_zip_map_misaligned :
    pgExecuteValuesTorrents targetWithH1 [sampleTorrent, torrentB] =
      .ok (⟨[{ sampleTorrent with id := 5 }, { torrentB with id := 6 }], [], 7, 1⟩,
        [6]) ∧
    buildIdMap [6] [sampleTorrent, torrentB] = [(1, 6)] ∧
    hashPresent targetWithH1 sampleTorrent.info_hash = true ∧
    sampleTorrent.id = 1 ∧ torrentB.id = 2 ∧
    ¬ (buildIdMap [6] [sampleTorrent, torrentB]).map Prod.fst = [torrentB.id] := by
  decide

/-- C2 (amended): the statement returns one id per accepted row only —
rejected rows produce no marker — and the map pairs the returned ids
positionally with the batch's torrents.  When no row of the batch conflicts
(all hashes absent from the target and pairwise distinct, and no NUL name),
the returned ids are consecutive fresh ids, the map keys are exactly the
batch's source ids, and each entry maps an accepted torrent's source id to
the target id actually assigned to that same torrent. -/
theorem c2_conflict_free_map_correct (db : TargetDB) (ts : List TorrentRow)
    (hn : (ts.any (fun t => hasNul t.name)) = false)
    (habs : ∀ t ∈ ts, hashPresent db t.info_hash = false)
    (hpw : ts.Pairwise (fun a b => a.info_hash ≠ b.info_hash)) :
    pgExecuteValuesTorrents db ts =
      .ok ((pgInsertAll db ts).1, List.range' db.nextTorrentId ts.length) ∧
    (∀ p ∈ buildIdMap (List.range' db.nextTorrentId ts.length) ts,
      ∃ t ∈ ts, t.id = p.1 ∧
        ({ t with id := p.2 } ∈ (pgInsertAll db ts).1.torrents)) ∧
    (buildIdMap (List.range' db.nextTorrentId ts.length) ts).map Prod.fst =
      ts.map (fun t => t.id) := by
  rcases pgInsertAll_fresh ts db habs hpw with ⟨hids, hmem⟩
  refine ⟨?_, ?_, ?_⟩
  · rw [pgExecuteValuesTorrents, if_neg (by simp [hn])]
    rw [show pgInsertAll db ts = ((pgInsertAll db ts).1, (pgInsertAll db ts).2) from rfl,
      hids]
  · intro p hp
    rw [buildIdMap] at hp
    rcases List.mem_map.mp hp with ⟨q, hq, rfl⟩
    exact ⟨q.2, (List.of_mem_zip hq).2, rfl, hmem q hq⟩
  · rw [buildIdMap, List.map_map]
    have hcomp : (Prod.fst ∘ fun p : Nat × TorrentRow => (p.2.id, p.1)) =
        fun p : Nat × TorrentRow => p.2.id := rfl
    rw [hcomp]
    exact zip_map_snd_proj (fun t => t.id) _ ts (List.length_range' _ _ _)

/-- C2 witness: the amended statement instantiated on a conflict-free
two-torrent batch over the empty target. -/
theorem c2_conflict_free_map_correct_witness :
    pgExecuteValuesTorrents emptyTarget [sampleTorrent, torrentB] =
      .ok ((pgInsertAll emptyTarget [sampleTorrent, torrentB]).1,
        List.range' emptyTarget.nextTorrentId [sampleTorrent, torrentB].length) ∧
    (buildIdMap (List.range' emptyTarget.nextTorrentId
        [sampleTorrent, torrentB].length) [sampleTorrent, torrentB]).map Prod.fst =
      [sampleTorrent, torrentB].map (fun t => t.id) := by
  have h := c2_conflict_free_map_correct emptyTarget [sampleTorrent, torrentB]
    (by decide) (by decide) (by decide)
  exact ⟨h.1, h.2.2⟩

/-- C3 (code bug): the spec claims a per-row insert yields a null/zero
resulting id exactly when the row conflicted, the file merge is then
skipped, and a rejected torrent contributes zero file rows.  In fact a
conflicted `ON CONFLICT DO NOTHING` insert leaves `lastrowid` at its stale
previous value:  merging `[sampleTorrent, torrentDupB]` (same hash) into the
empty shared-storage target counts the duplicate as inserted (failed = 0,
inserted = 2) and merges the duplicate's file row under the stale rowid 1. -/
theorem c3_stale_lastrowid_duplicate_files_merged :
    torrentDupB.info_hash = sampleTorrent.info_hash ∧
    sqliteMergeTorrents srcDup true { db := emptyTarget, lastInsertRowid := 0 }
        [sampleTorrent, torrentDupB] =
      (sqliteDupAfter,
        { failed := 0, inserted := 2, processed := 2, last := some torrentDupB }) ∧
    (sqliteDupAfter.db.files.any (fun f => f.path = fileB.path)) = true := by
  decide

/-- C4: for every batch returned by `merge_torrents` — on both backends —
the reported counts satisfy processed = inserted + failed with processed
equal to the number of rows in the batch, and the aggregates accumulated
across a run are the exact sums of the per-batch counts, satisfy the same
invariant, and are non-decreasing over the run's prefixes. -/
theorem c4_count_invariant :
    (∀ (src : SourceDB) (ms : Bool) (st : SqliteState) (ts : List TorrentRow),
      (sqliteMergeTorrents src ms st ts).2.processed = ts.length ∧
      (sqliteMergeTorrents src ms st ts).2.inserted +
          (sqliteMergeTorrents src ms st ts).2.failed =
        (sqliteMergeTorrents src ms st ts).2.processed) ∧
    (∀ (c : Bool) (src : SourceDB) (fuel : Nat) (db db' : TargetDB)
      (ts : List TorrentRow) (r : MergeResult),
      pgMergeTorrents c src fuel db ts = .ok (db', r) →
      r.processed = ts.length ∧ r.inserted + r.failed = r.processed) ∧
    (∀ (src : SourceDB) (ms : Bool) (st : SqliteState) (bs : List (List TorrentRow)),
      sumBy (fun r => r.processed) (sqliteRunBatches src ms st bs).2 =
        (bs.map List.length).sum ∧
      sumBy (fun r => r.inserted) (sqliteRunBatches src ms st bs).2 +
          sumBy (fun r => r.failed) (sqliteRunBatches src ms st bs).2 =
        sumBy (fun r => r.processed) (sqliteRunBatches src ms st bs).2) ∧
    (∀ (c : Bool) (src : SourceDB) (db db' : TargetDB)
      (bs : List (List TorrentRow)) (rs : List MergeResult),
      pgRunBatches c src db bs = .ok (db', rs) →
      sumBy (fun r => r.processed) rs = (bs.map List.length).sum ∧
      sumBy (fun r => r.inserted) rs + sumBy (fun r => r.failed) rs =
        sumBy (fun r => r.processed) rs) ∧
    (∀ (g : MergeResult → Nat) (rs : List MergeResult) (n : Nat),
      sumBy g (rs.take n) ≤ sumBy g (rs.take (n + 1))) := by
  refine ⟨?_, ?_, ?_, ?_, ?_⟩
  · intro src ms st ts
    constructor
    · exact sqliteMergeCounts_processed src ms ts st
    · show (sqliteMergeCounts src ms st ts).2.2.1 + (sqliteMergeCounts src ms st ts).2.1 =
        (sqliteMergeCounts src ms st ts).2.2.2
      have h1 := sqliteMergeCounts_sum src ms ts st
      omega
  · intro c src fuel db db' ts r h
    exact pgMergeTorrents_ok_counts c src fuel db ts db' r h
  · intro src ms st bs
    exact ⟨sqliteRunBatches_processed_sum src ms bs st,
      sumBy_add_of_pointwise _ (sqliteRunBatches_results src ms bs st)⟩
  · intro c src db db' bs rs h
    exact ⟨pgRunBatches_processed_sum c src bs db db' rs h,
      sumBy_add_of_pointwise rs (pgRunBatches_results c src bs db db' rs h)⟩
  · intro g rs n
    exact sumBy_take_mono g rs n

/-- C4 witness: the PostgreSQL batch invariant at the concrete mixed batch
`[sampleTorrent, torrentB]` into `targetWithH1`. -/
theorem c4_count_invariant_witness :
    ({ failed := 1, inserted := 1, processed := 2, last := some torrentB } :
        MergeResult).processed = [sampleTorrent, torrentB].length ∧
    ({ failed := 1, inserted := 1, processed := 2, last := some torrentB } :
          MergeResult).inserted +
        ({ failed := 1, inserted := 1, processed := 2, last := some torrentB } :
          MergeResult).failed =
      ({ failed := 1, inserted := 1, processed := 2, last := some torrentB } :
        MergeResult).processed :=
  c4_count_invariant.2.1 true srcAB 2 targetWithH1 pgMisalignedAfter
    [sampleTorrent, torrentB]
    { failed := 1, inserted := 1, processed := 2, last := some torrentB } (by decide)

/-- C5: rerunning the merge against the same source/target pair after a
completed run leaves the target unchanged (zero additional torrent and file
rows): on the SQLite path every torrent re-conflicts with the stale rowid
still 0, so each batch reports all rows failed and none inserted; on the
PostgreSQL path a second run over the same batches returns the same target
state with every batch reporting inserted = 0 and failed = batch length. -/
theorem c5_rerun_idempotent :
    (∀ (src : SourceDB) (ms : Bool) (db0 : TargetDB) (bs : List (List TorrentRow)),
      sqliteRunBatches src ms
          { db := (sqliteRunBatches src ms { db := db0, lastInsertRowid := 0 } bs).1.db,
            lastInsertRowid := 0 } bs =
        ({ db := (sqliteRunBatches src ms { db := db0, lastInsertRowid := 0 } bs).1.db,
            lastInsertRowid := 0 },
          bs.map (fun b =>
            { failed := b.length, inserted := 0, processed := b.length,
              last := b.getLast? }))) ∧
    (∀ (c : Bool) (src : SourceDB) (db0 db1 : TargetDB)
      (bs : List (List TorrentRow)) (rs1 : List MergeResult),
      pgRunBatches c src db0 bs = .ok (db1, rs1) →
      ∃ rs2, pgRunBatches c src db1 bs = .ok (db1, rs2) ∧
        List.Forall₂ (fun (r : MergeResult) (b : List TorrentRow) =>
          r.inserted = 0 ∧ r.failed = b.length ∧ r.processed = b.length) rs2 bs) := by
  constructor
  · intro src ms db0 bs
    refine sqliteRunBatches_rerun src ms bs _ ?_ rfl
    intro t ht
    exact sqliteRunBatches_present src ms bs { db := db0, lastInsertRowid := 0 } t ht
  · intro c src db0 db1 bs rs1 h1
    exact pgRunBatches_rerun c src bs db1
      (pgRunBatches_ok_present c src bs db0 db1 rs1 h1).2

/-- C5 witness: a second PostgreSQL run of `srcAB` against the target left
by a completed first run changes nothing and reports all rows failed. -/
theorem c5_rerun_idempotent_witness :
    ∃ rs2, pgRunBatches true srcAB pgFirstRunAfter [[sampleTorrent, torrentB]] =
      .ok (pgFirstRunAfter, rs2) ∧
      List.Forall₂ (fun (r : MergeResult) (b : List TorrentRow) =>
        r.inserted = 0 ∧ r.failed = b.length ∧ r.processed = b.length) rs2
        [[sampleTorrent, torrentB]] :=
  c5_rerun_idempotent.2 true srcAB emptyTarget pgFirstRunAfter
    [[sampleTorrent, torrentB]]
    [{ failed := 0, inserted := 2, processed := 2, last := some torrentB }] (by decide)

/-- C6: on a batch whose text contains an embedded NUL the engine strips
NULs from every text column of the batch (`name` is the only torrent text
column) and retries exactly once — the call at one extra recursion level
equals the straight call on the stripped batch, the stripped batch has no
NUL left and needs no further retry (its result is independent of any extra
fuel), while the original batch with only one recursion level exhausts the
retry budget; with benign source file rows the batch then merges
successfully with no row discarded.  A rejection that is not a NUL
ValueError propagates as fatal for every possible backend outcome. -/
theorem c6_nul_sanitization_retry :
    (∀ (c : Bool) (src : SourceDB) (fuel : Nat) (db : TargetDB)
      (ts : List TorrentRow),
      (ts.any (fun t => hasNul t.name)) = true →
      pgMergeTorrents c src (fuel + 1 + 1) db ts =
        pgMergeTorrents c src (fuel + 1) db (fixBytesName ts) ∧
      ((fixBytesName ts).any (fun t => hasNul t.name)) = false ∧
      pgMergeTorrents c src (fuel + 1) db (fixBytesName ts) =
        pgMergeTorrents c src 1 db (fixBytesName ts) ∧
      pgMergeTorrents c src 1 db ts = .error .recursionLimit) ∧
    (∀ (c : Bool) (src : SourceDB) (fuel : Nat) (db : TargetDB)
      (ts : List TorrentRow),
      (∀ f ∈ src.files, fileTextHasNul f = false ∧ f.is_readme = none) →
      ∃ db' r, pgMergeTorrents c src (fuel + 1 + 1) db ts = .ok (db', r) ∧
        r.processed = ts.length) ∧
    (∀ (exec : TargetDB → List TorrentRow → Except MergeError (TargetDB × List Nat))
      (c : Bool) (src : SourceDB) (fuel : Nat) (db : TargetDB)
      (ts : List TorrentRow) (e : MergeError),
      exec db ts = .error e → ¬ e = .valueErrorNul →
      ∃ e', pgMergeTorrentsGen exec c src (fuel + 1) db ts = .error e') := by
  refine ⟨?_, ?_, ?_⟩
  · intro c src fuel db ts hn
    exact ⟨pgMergeTorrents_nul_step c src (fuel + 1) hn, fixBytesName_noNul ts,
      pgMergeTorrents_noNul_fuel c src fuel (fixBytesName_noNul ts),
      pgMergeTorrents_fuel1_nul c src hn⟩
  · intro c src fuel db ts hbenign
    by_cases hn : (ts.any (fun t => hasNul t.name)) = true
    · rcases pgMergeTorrents_noNul_ok c src fuel db (fixBytesName ts)
        (fixBytesName_noNul ts) hbenign with ⟨db', r, hok⟩
      refine ⟨db', r, ?_, ?_⟩
      · rw [pgMergeTorrents_nul_step c src (fuel + 1) hn]
        exact hok
      · have hc := (pgMergeTorrents_ok_counts c src (fuel + 1) db
          (fixBytesName ts) db' r hok).1
        rw [fixBytesName_length] at hc
        exact hc
    · rcases pgMergeTorrents_noNul_ok c src (fuel + 1) db ts
        (Bool.eq_false_iff.mpr hn) hbenign with ⟨db', r, hok⟩
      exact ⟨db', r, hok,
        (pgMergeTorrents_ok_counts c src (fuel + 1 + 1) db ts db' r hok).1⟩
  · intro exec c src fuel db ts e hexec hne
    exact pgMergeTorrentsGen_error exec c src fuel db ts e hexec hne

/-- C6 witness: a singleton batch whose name contains NUL fails with one
recursion level but succeeds (rows kept) with two, over benign files. -/
theorem c6_nul_sanitization_retry_witness :
    pgMergeTorrents true srcAB 1 emptyTarget [torrentNulName] =
      .error .recursionLimit ∧
    (∃ db' r, pgMergeTorrents true srcAB (0 + 1 + 1) emptyTarget [torrentNulName] =
      .ok (db', r) ∧ r.processed = [torrentNulName].length) := by
  refine ⟨?_, ?_⟩
  · exact (c6_nul_sanitization_retry.1 true srcAB 0 emptyTarget [torrentNulName]
      (by decide)).2.2.2
  · exact c6_nul_sanitization_retry.2.1 true srcAB 0 emptyTarget [torrentNulName]
      (by decide)

/-- C7: after a fast-mode round (before-import then after-import) on a
catalog with unique constraint keys and unique index names, the set of
constraints and the set of indices on the target equal their pre-run sets;
the content-hash uniqueness constraint is never among the dropped
constraints and remains present both during and after the run. -/
theorem c7_fast_mode_symmetry (cat cat1 : PgCatalog) (cs : List PgConstraint)
    (idx : List PgIndex)
    (hkc : (cat.constraints.map (fun c => (c.relname, c.conname))).Nodup)
    (hki : ((allIndices cat).map (fun i => i.indexname)).Nodup)
    (hok : beforeImportFast cat = .ok (cat1, cs, idx)) :
    (∀ c, c ∈ (afterImportFast cat1 cs idx).constraints ↔ c ∈ cat.constraints) ∧
    (∀ i, i ∈ allIndices (afterImportFast cat1 cs idx) ↔ i ∈ allIndices cat) ∧
    (∀ c ∈ cs, ¬ c.conname = hashKeyName) ∧
    (∀ c ∈ cat.constraints, c.conname = hashKeyName →
      c ∈ cat1.constraints ∧ c ∈ (afterImportFast cat1 cs idx).constraints) := by
  rw [beforeImportFast] at hok
  by_cases hemp :
      (visibleIndices (dropConstraints cat (capturedConstraints cat))).isEmpty
  · rw [if_pos hemp] at hok
    exact absurd hok (by simp)
  · rw [if_neg hemp] at hok
    simp only [Except.ok.injEq, Prod.mk.injEq] at hok
    rcases hok with ⟨h1, h2, h3⟩
    subst h1
    subst h2
    subst h3
    refine ⟨fastMode_constraints_restore cat hkc,
      fastMode_indices_restore cat hkc hki, ?_, ?_⟩
    · intro c hc
      have h := (mem_capturedConstraints.mp hc).2
      simp only [Bool.and_eq_true, decide_eq_true_eq] at h
      exact h.2
    · intro c hc hname
      have hcp : ¬ ((onCoreTables c.relname && ¬ c.conname = hashKeyName) = true) := by
        simp [hname]
      have hmem1 : c ∈ (fastModeDuring cat).constraints :=
        (dropConstraints_captured_mem cat hkc c).mpr ⟨hc, hcp⟩
      exact ⟨hmem1, List.mem_append_left _ hmem1⟩

/-- C7 witness: the round trip on the concrete schema catalog. -/
theorem c7_fast_mode_symmetry_witness :
    ((⟨"torrents_pkey", "torrents", true⟩ : PgConstraint) ∈
      (afterImportFast sampleCatalogDuring sampleCaptured sampleIdx).constraints) ∧
    ((⟨"modified_on_index", "torrents"⟩ : PgIndex) ∈
      allIndices (afterImportFast sampleCatalogDuring sampleCaptured sampleIdx)) ∧
    (∀ c ∈ sampleCaptured, ¬ c.conname = hashKeyName) := by
  have h := c7_fast_mode_symmetry sampleCatalog sampleCatalogDuring sampleCaptured
    sampleIdx (by decide) (by decide) (by decide)
  exact ⟨(h.1 _).mpr (by decide), (h.2.1 _).mpr (by decide), h.2.2.1⟩

/-- C8 (counterexample): the claim says a fatal error makes the process exit
non-zero.  In fact `main`'s blanket `except BaseException` handler swallows
the exception after rolling back, and the command returns normally: a
stripped-files run — which always raises `TypeError` at the final
`results["last"]["id"]` — surfaces the error and rolls back, yet the
process exit code is 0. -/
theorem c8_error_swallowed_exit_zero :
    (mainRunPg true true srcAB emptyTarget).rolledBack = true ∧
    (mainRunPg true true srcAB emptyTarget).errorSurfaced = true ∧
    (mainRunPg true true srcAB emptyTarget).exitCode = 0 := by
  decide

/-- C8 (amended): on any fatal error during the merge the entire target
transaction is rolled back (the durable state stays at the initial target),
nothing is committed, and the error is surfaced — but the exception is
swallowed and the process exits 0, not non-zero; on success the run commits
exactly once.  The exit code is 0 on every path. -/
theorem c8_rollback_and_commit_behavior (stripped c : Bool) (src : SourceDB)
    (db0 : TargetDB) :
    ((mainRunPg stripped c src db0).rolledBack = true →
      (mainRunPg stripped c src db0).commits = 0 ∧
      (mainRunPg stripped c src db0).committedDb = db0 ∧
      (mainRunPg stripped c src db0).errorSurfaced = true ∧
      (mainRunPg stripped c src db0).exitCode = 0) ∧
    ((mainRunPg stripped c src db0).rolledBack = false →
      (mainRunPg stripped c src db0).commits = 1) ∧
    (mainRunPg stripped c src db0).exitCode = 0 := by
  rcases mainRunPg_outcomes stripped c src db0 with h | ⟨h1, h2, h3, h4⟩
  · rw [h]
    exact ⟨fun _ => ⟨rfl, rfl, rfl, rfl⟩,
      fun hfalse => by simp [rollbackOutcome] at hfalse, rfl⟩
  · exact ⟨fun htrue => absurd htrue (by simp [h1]), fun _ => h2, h4⟩

/-- C8 witness: the amended statement instantiated on a stripped run (which
rolls back) over the concrete source. -/
theorem c8_rollback_and_commit_behavior_witness :
    ((mainRunPg true true srcAB emptyTarget).commits = 0 ∧
      (mainRunPg true true srcAB emptyTarget).committedDb = emptyTarget ∧
      (mainRunPg true true srcAB emptyTarget).errorSurfaced = true ∧
      (mainRunPg true true srcAB emptyTarget).exitCode = 0) ∧
    (mainRunPg true true srcAB emptyTarget).exitCode = 0 := by
  have h := c8_rollback_and_commit_behavior true true srcAB emptyTarget
  exact ⟨h.1 (by decide), h.2.2⟩

/-- C9 (code bug): in stripped-source mode the torrent selection is indeed
restricted to source rows with at least one file row, and each non-empty
batch's result retains its last row — but `main` reads `results["last"]`
from the final call on the empty fetch that terminated the loop, which is
always `None`: the subscript raises `TypeError`, the blanket handler rolls
the whole merge back, and no highest-merged id is ever reported. -/
theorem c9_stripped_mode_crash_no_report :
    strippedSelection true srcWithEmptyTorrent = [sampleTorrent, torrentB] ∧
    pgMergeTorrents true srcWithEmptyTorrent 2 emptyTarget
        [sampleTorrent, torrentB] =
      .ok (pgFirstRunAfter,
        { failed := 0, inserted := 2, processed := 2, last := some torrentB }) ∧
    mainRunPg true true srcWithEmptyTorrent emptyTarget =
      rollbackOutcome emptyTarget ∧
    (rollbackOutcome emptyTarget).reportedLastId = none := by
  decide

/-- C10: reading a text value from an embedded source never fails — the
installed text factory decodes every byte sequence totally: whenever the
strict UTF-8 decoding succeeds the factory returns the same characters, and
whenever strict decoding would raise, the factory instead returns a string
containing the Unicode replacement character. -/
theorem c10_text_factory_total_replace :
    (∀ (bs : List Nat) (cs : List Char),
      utf8DecodeStrict bs = some cs → textFactory bs = cs) ∧
    (∀ bs : List Nat, utf8DecodeStrict bs = none → repChar ∈ textFactory bs) :=
  ⟨fun bs cs h => utf8_strict_replace_agree bs cs h,
    fun bs h => utf8_strict_fails_replaced bs h⟩

/-- C10 witness: valid ASCII decodes to itself; the lone byte 0xFF makes
strict decoding fail, and the factory yields the replacement character. -/
theorem c10_text_factory_total_replace_witness :
    textFactory [104, 105] = [Char.ofNat 104, Char.ofNat 105] ∧
    repChar ∈ textFactory [255] := by
  refine ⟨c10_text_factory_total_replace.1 [104, 105]
    [Char.ofNat 104, Char.ofNat 105] (by decide),
    c10_text_factory_total_replace.2 [255] (by decide)⟩

end MagneticoMerge
